import Mathlib

/-!
Verification of the fixed-capacity slot allocator.

A shallow embedding of `FixedAllocator<T, Size>` (src/include/allocator.h) and the
properties of its slot bookkeeping, followed by `factorial` (src/include/factorial.h)
and `SimpleFwdList` (src/include/simple_fwdlist.h).

* A pointer `T*` is a byte address (`Nat`); `0` is the null pointer.  `ptr_ + k` on a `T*`
  is `ptr_ + k * sizeofT`.
* `std::size_t` is 64 bits wide: arithmetic on `poolSize_` and `n` that can wrap is reduced
  modulo `2 ^ 64`.
* `std::malloc` is part of the environment: the value it would return is an argument of
  `allocate` (`0` when the acquisition fails).
* An access to `ptrPool_` outside `[0, Size)` is undefined behaviour in the source; the
  embedding stops there with the outcome `outOfBounds`.  `allocateLaidOut` is the same
  call with the one such read the run search can make, `ptrPool_[Size]`, returning the
  member that follows the table.
* Assertions are active (`NDEBUG` is not defined): a failing `assert` ends the call with
  the outcome `assertFailed`.
* A thrown `std::bad_alloc` is the outcome `badAlloc`, with the data members as they are
  at the `throw`.
-/

set_option autoImplicit false

namespace FixedAllocator

/-- A pointer value `T*`: a byte address, `0` for the null pointer. -/
abbrev Ptr := Nat

/-- The null pointer. -/
def nullptr : Ptr := 0

/-- Number of values of `std::size_t` (64 bit). -/
def SIZE_T_RANGE : Nat := 2 ^ 64

/-- Largest value of `int`, the type of the template parameter `Size`. -/
def INT_MAX : Nat := 2147483647

/-- Data members of `FixedAllocator` (allocator.h lines 160-162). -/
structure State where
  ptr_ : Ptr
  ptrPool_ : List Ptr
  poolSize_ : Nat
deriving DecidableEq, Repr

/-- A default-constructed allocator: no block, `Size` null markers, occupancy 0. -/
def fresh (Size : Nat) : State :=
  { ptr_ := nullptr, ptrPool_ := List.replicate Size nullptr, poolSize_ := 0 }

/-- How a call ends. -/
inductive Outcome
  | returned (p : Ptr)
  | finished
  | badAlloc
  | assertFailed
  | outOfBounds
  | outOfFuel
deriving DecidableEq, Repr

/-- The way a call ends together with the data members at that point. -/
structure Result where
  outcome : Outcome
  state : State
deriving DecidableEq, Repr

/-- Member `data()`. -/
def data (s : State) : Ptr := s.ptr_

/-- Member `size()`. -/
def size (s : State) : Nat := s.poolSize_

/-- Scanning loop of `std::find`: `rest` are the elements from position `i` on. -/
def findLoop (value : Ptr) : List Ptr → Nat → Nat
  | [], i => i
  | x :: rest, i => if x = value then i else findLoop value rest (i + 1)

/-- The call `std::find(ptrPool_.begin() + first, ptrPool_.end(), value)` as an index;
the table length stands for `end()`. -/
def find (pool : List Ptr) (first : Nat) (value : Ptr) : Nat :=
  findLoop value (pool.drop first) first

/-- Result of the inner loop of the run search. -/
inductive Probe
  | complete
  | mismatch
  | outOfBounds
deriving DecidableEq, Repr

/-- Inner loop, lines 77-84: `for (; found < n; ++found)` probing `ptrPool_[index + found]`;
the first argument is the number of iterations left, `n - found`. -/
def probe (pool : List Ptr) (index : Nat) : Nat → Nat → Probe
  | 0, _ => Probe.complete
  | k + 1, found =>
    match pool[index + found]? with
    | none => Probe.outOfBounds
    | some q => if q ≠ nullptr then Probe.mismatch else probe pool index k (found + 1)

/-- Result of the outer loop of the run search. -/
inductive Search
  | found (index : Nat)
  | exhausted
  | outOfBounds
  | outOfFuel
deriving DecidableEq, Repr

/-- Outer loop, lines 72-89: `while (it != ptrPool_.end())`.  The first argument bounds
the number of iterations. -/
def search (pool : List Ptr) (n : Nat) : Nat → Nat → Search
  | 0, _ => Search.outOfFuel
  | fuel + 1, it =>
    if it = pool.length then Search.exhausted
    else
      match probe pool it (n - 1) 1 with
      | Probe.complete => Search.found it
      | Probe.mismatch => search pool n fuel (find pool (it + 1) nullptr)
      | Probe.outOfBounds => Search.outOfBounds

/-- Loop of lines 59-62: `for (; poolSize_ < n; ++poolSize_) ptrPool_[poolSize_] = ptr_ + poolSize_`;
the first argument is the number of iterations left, `n - poolSize_` (no wrap: `poolSize_ < n`). -/
def firstFill (sizeofT : Nat) : Nat → State → State
  | 0, s => s
  | k + 1, s =>
    firstFill sizeofT k
      { s with ptrPool_ := s.ptrPool_.set s.poolSize_ (s.ptr_ + s.poolSize_ * sizeofT),
               poolSize_ := s.poolSize_ + 1 }

/-- Loop of lines 97-101: `for (i = 0; i < n; ++i) { ptrPool_[index + i] = ptr_ + index + i; ++poolSize_; }`;
the first argument is the number of iterations left, `n - i`. -/
def markLoop (sizeofT index : Nat) : Nat → Nat → State → State
  | 0, _, s => s
  | k + 1, i, s =>
    markLoop sizeofT index k (i + 1)
      { s with ptrPool_ := s.ptrPool_.set (index + i) (s.ptr_ + (index + i) * sizeofT),
               poolSize_ := (s.poolSize_ + 1) % SIZE_T_RANGE }

/-- The test of line 45, `(poolSize_ + n) > Size`: the sum is formed in `std::size_t`
and wraps modulo `2 ^ 64`. -/
def exceedsCapacity (Size poolSize n : Nat) : Prop :=
  (poolSize + n) % SIZE_T_RANGE > Size

instance (Size poolSize n : Nat) : Decidable (exceedsCapacity Size poolSize n) := by
  unfold exceedsCapacity; infer_instance

/-- Member `allocate(n)`, lines 39-104.  `mallocResult` is what `std::malloc` returns if
it is called. -/
def allocate (Size sizeofT : Nat) (mallocResult : Ptr) (s : State) (n : Nat) : Result :=
  if n = 0 then ⟨Outcome.returned nullptr, s⟩
  else if exceedsCapacity Size s.poolSize_ n then ⟨Outcome.badAlloc, s⟩
  else if s.poolSize_ = 0 then
    let s1 : State := { s with ptr_ := mallocResult }
    if s1.ptr_ = nullptr then ⟨Outcome.badAlloc, s1⟩
    else
      let s2 := firstFill sizeofT (n - s1.poolSize_) s1
      ⟨Outcome.returned s2.ptr_, s2⟩
  else
    let it := find s.ptrPool_ 0 nullptr
    if it = s.ptrPool_.length then ⟨Outcome.assertFailed, s⟩
    else
      match search s.ptrPool_ n (s.ptrPool_.length + 1) it with
      | Search.found index =>
        ⟨Outcome.returned (s.ptr_ + index * sizeofT), markLoop sizeofT index n 0 s⟩
      | Search.exhausted => ⟨Outcome.badAlloc, s⟩
      | Search.outOfBounds => ⟨Outcome.outOfBounds, s⟩
      | Search.outOfFuel => ⟨Outcome.outOfFuel, s⟩

/-- Loop of lines 115-120: `for (i = 0; i < n; ++i) { *it = nullptr; --poolSize_; ++it; }`;
the first argument is the number of iterations left.  A store through `end()` or beyond
stops the loop (`Except.error`). -/
def freeLoop : Nat → Nat → State → Except State State
  | 0, _, s => Except.ok s
  | k + 1, it, s =>
    if it < s.ptrPool_.length then
      freeLoop k (it + 1)
        { s with ptrPool_ := s.ptrPool_.set it nullptr,
                 poolSize_ := (s.poolSize_ + SIZE_T_RANGE - 1) % SIZE_T_RANGE }
    else Except.error s

/-- Member `deallocate(p, n)`, lines 109-126. -/
def deallocate (s : State) (p : Ptr) (n : Nat) : Result :=
  let it := find s.ptrPool_ 0 p
  if it = s.ptrPool_.length then ⟨Outcome.assertFailed, s⟩
  else
    match freeLoop n it s with
    | Except.error s1 => ⟨Outcome.outOfBounds, s1⟩
    | Except.ok s1 =>
      if s1.poolSize_ = 0 then ⟨Outcome.finished, { s1 with ptr_ := nullptr }⟩
      else ⟨Outcome.finished, s1⟩

/-! ### Predicates on states -/

/-- Number of occupied (non-null) markers of the slot table. -/
def occupied (pool : List Ptr) : Nat := pool.countP (fun q => q ≠ nullptr)

/-- Well-formed state: the slot table has `Size` markers, `poolSize_` counts the
occupied ones, and the block exists exactly when `poolSize_` is positive. -/
def WellFormed (Size : Nat) (s : State) : Prop :=
  s.ptrPool_.length = Size ∧ s.poolSize_ = occupied s.ptrPool_ ∧
    (s.ptr_ ≠ nullptr ↔ 0 < s.poolSize_)

instance (Size : Nat) (s : State) : Decidable (WellFormed Size s) := by
  unfold WellFormed; infer_instance

/-- Every occupied marker `j` holds the address of slot `j`, `ptr_ + j`. -/
def SlotsAligned (sizeofT : Nat) (s : State) : Prop :=
  ∀ j < s.ptrPool_.length, s.ptrPool_[j]? = some nullptr ∨
    s.ptrPool_[j]? = some (s.ptr_ + j * sizeofT)

instance (sizeofT : Nat) (s : State) : Decidable (SlotsAligned sizeofT s) := by
  unfold SlotsAligned; infer_instance

/-- Slots `j .. j+n-1` exist and are all empty. -/
def Fits (pool : List Ptr) (n j : Nat) : Prop :=
  ∀ k < n, pool[j + k]? = some nullptr

instance (pool : List Ptr) (n j : Nat) : Decidable (Fits pool n j) := by
  unfold Fits; infer_instance

/-- Slots `i .. i+n-1` exist and are all occupied. -/
def Occupied (pool : List Ptr) (n i : Nat) : Prop :=
  ∀ k < n, i + k < pool.length ∧ pool[i + k]? ≠ some nullptr

instance (pool : List Ptr) (n i : Nat) : Decidable (Occupied pool n i) := by
  unfold Occupied; infer_instance

/-- Table after storing `f j` into every slot `j` of `i .. i+k-1` in increasing order. -/
def setRange (f : Nat → Ptr) : Nat → Nat → List Ptr → List Ptr
  | 0, _, pool => pool
  | k + 1, i, pool => setRange f k (i + 1) (pool.set i (f i))

/-- Loop invariant of the run search: `it` is `end()` or an empty slot, and no run of
`n` empty slots starts before `it`. -/
def SearchInv (pool : List Ptr) (n it : Nat) : Prop :=
  it ≤ pool.length ∧ (it < pool.length → pool[it]? = some nullptr) ∧
    ∀ j < it, ¬ Fits pool n j

/-- What the run search establishes. -/
def SearchPost (pool : List Ptr) (n : Nat) : Search → Prop
  | Search.found idx => Fits pool n idx ∧ ∀ j < idx, ¬ Fits pool n j
  | Search.exhausted => ∀ j, ¬ Fits pool n j
  | Search.outOfBounds => ∀ j, ¬ Fits pool n j
  | Search.outOfFuel => False

/-! ### Fragmentation -/

/-- State of a `Size = 4` allocator after `allocate(1)` three times and `deallocate` of
the second address with `n = 1`: slots 0 and 2 occupied, slots 1 and 3 empty. -/
def holeAtOneState : State :=
  let s1 := (allocate 4 4 1000 (fresh 4) 1).state
  let s2 := (allocate 4 4 0 s1 1).state
  let s3 := (allocate 4 4 0 s2 1).state
  (deallocate s3 1004 1).state

/-- State of the fragmentation scenario: `Size = 4`, `allocate(1)` twice, then
`deallocate` of the first address (the block base `m`) with `n = 1`. -/
def fragmentationScenario (sizeofT m m2 : Nat) : State :=
  (deallocate (allocate 4 sizeofT m2 (allocate 4 sizeofT m (fresh 4) 1).state 1).state m 1).state

/-! ### Sequences of calls -/

/-- One call on the allocator; an `alloc` carries what `std::malloc` returns if the call
reaches it. -/
inductive Op
  | alloc (n : Nat) (mallocResult : Ptr)
  | dealloc (p : Ptr) (n : Nat)
deriving DecidableEq, Repr

/-- Allocator state together with the runs handed out and not yet released, each as
(address returned by `allocate`, requested count). -/
structure Sys where
  st : State
  live : List (Ptr × Nat)
deriving DecidableEq, Repr

/-- One call of a client that honours the contract: `allocate(n)` with any `std::size_t`
value `n`, or `deallocate(p, n)` for a pair `(p, n)` returned by an earlier `allocate(n)`
and not released since.  `none` when the call is not of this kind. -/
def step (Size sizeofT : Nat) (c : Sys) : Op → Option Sys
  | Op.alloc n m =>
    if n < SIZE_T_RANGE then
      match (allocate Size sizeofT m c.st n).outcome with
      | Outcome.returned p => some ⟨(allocate Size sizeofT m c.st n).state, (p, n) :: c.live⟩
      | _ => some ⟨(allocate Size sizeofT m c.st n).state, c.live⟩
    else none
  | Op.dealloc p n =>
    if (p, n) ∈ c.live then some ⟨(deallocate c.st p n).state, c.live.erase (p, n)⟩
    else none

/-- A sequence of calls, from left to right. -/
def run (Size sizeofT : Nat) : Sys → List Op → Option Sys
  | c, [] => some c
  | c, op :: ops =>
    match step Size sizeofT c op with
    | some c1 => run Size sizeofT c1 ops
    | none => none

/-- A live entry is an empty request or a run of occupied slots starting at the slot
whose address it carries. -/
def LiveGood (sizeofT : Nat) (s : State) (e : Ptr × Nat) : Prop :=
  e.2 = 0 ∨ ∃ i : Nat, e.1 = s.ptr_ + i * sizeofT ∧ Occupied s.ptrPool_ e.2 i

/-- Two live entries share no slot. -/
def LiveDisjoint (sizeofT : Nat) (base : Ptr) (e1 e2 : Ptr × Nat) : Prop :=
  ∀ i1 i2 k1 k2 : Nat, e1.1 = base + i1 * sizeofT → e2.1 = base + i2 * sizeofT →
    k1 < e1.2 → k2 < e2.2 → i1 + k1 ≠ i2 + k2

/-- Invariant of the sequences of calls. -/
def Inv (Size sizeofT : Nat) (c : Sys) : Prop :=
  WellFormed Size c.st ∧ SlotsAligned sizeofT c.st ∧
    (∀ e ∈ c.live, LiveGood sizeofT c.st e) ∧
    c.live.Pairwise (LiveDisjoint sizeofT c.st.ptr_)

/-! ### Sequential fill -/

/-- State after `k` calls `allocate(1)` in a row on a freshly constructed allocator;
`ms j` is what `std::malloc` returns if call number `j` reaches it. -/
def fillOnes (Size sizeofT : Nat) (ms : Nat → Ptr) : Nat → State
  | 0 => fresh Size
  | k + 1 => (allocate Size sizeofT (ms k) (fillOnes Size sizeofT ms k) 1).state

/-! ### The stray read resolved by the member layout -/

/-- The read `ptrPool_[j]` with the data members laid out as lines 160-162 declare them
(`ptr_`, `ptrPool_`, `poolSize_`; pointers and `std::size_t` of one size, no padding):
inside the table the marker of slot `j`, at `j = Size` the word that follows the array,
which is `poolSize_`, and beyond that no member of the object (`none`). -/
def readLaidOut (s : State) (j : Nat) : Option Ptr :=
  if j < s.ptrPool_.length then s.ptrPool_[j]?
  else if j = s.ptrPool_.length then some s.poolSize_
  else none

/-- Inner loop, lines 77-84, as `probe`, with the read `ptrPool_[index + found]`
resolved by `readLaidOut`. -/
def probeLaidOut (s : State) (index : Nat) : Nat → Nat → Probe
  | 0, _ => Probe.complete
  | k + 1, found =>
    match readLaidOut s (index + found) with
    | none => Probe.outOfBounds
    | some q => if q ≠ nullptr then Probe.mismatch else probeLaidOut s index k (found + 1)

/-- Outer loop, lines 72-89, as `search`, over `probeLaidOut`. -/
def searchLaidOut (s : State) (n : Nat) : Nat → Nat → Search
  | 0, _ => Search.outOfFuel
  | fuel + 1, it =>
    if it = s.ptrPool_.length then Search.exhausted
    else
      match probeLaidOut s it (n - 1) 1 with
      | Probe.complete => Search.found it
      | Probe.mismatch => searchLaidOut s n fuel (find s.ptrPool_ (it + 1) nullptr)
      | Probe.outOfBounds => Search.outOfBounds

/-- Member `allocate(n)`, lines 39-104, as `allocate`, with the run search reading the
table through `readLaidOut`: what the call does when the read one past the table
returns the neighbouring member instead of ending the call. -/
def allocateLaidOut (Size sizeofT : Nat) (mallocResult : Ptr) (s : State) (n : Nat) :
    Result :=
  if n = 0 then ⟨Outcome.returned nullptr, s⟩
  else if exceedsCapacity Size s.poolSize_ n then ⟨Outcome.badAlloc, s⟩
  else if s.poolSize_ = 0 then
    let s1 : State := { s with ptr_ := mallocResult }
    if s1.ptr_ = nullptr then ⟨Outcome.badAlloc, s1⟩
    else
      let s2 := firstFill sizeofT (n - s1.poolSize_) s1
      ⟨Outcome.returned s2.ptr_, s2⟩
  else
    let it := find s.ptrPool_ 0 nullptr
    if it = s.ptrPool_.length then ⟨Outcome.assertFailed, s⟩
    else
      match searchLaidOut s n (s.ptrPool_.length + 1) it with
      | Search.found index =>
        ⟨Outcome.returned (s.ptr_ + index * sizeofT), markLoop sizeofT index n 0 s⟩
      | Search.exhausted => ⟨Outcome.badAlloc, s⟩
      | Search.outOfBounds => ⟨Outcome.outOfBounds, s⟩
      | Search.outOfFuel => ⟨Outcome.outOfFuel, s⟩

end FixedAllocator

namespace Factorial

open FixedAllocator

/-! ### `factorial` (src/include/factorial.h) -/

/-- How a call of `factorial` ends: with a value, at the signed overflow of `++i`, or
with the iteration bound of the embedding used up. -/
inductive FactResult
  | returned (f : Nat)
  | signedOverflow
  | outOfFuel
deriving DecidableEq, Repr

/-- Loop of lines 14-17: `for (int i = 1; i <= n; ++i) f *= i;` with `f` a
`std::size_t` (product modulo `2 ^ 64`) and `i` an `int` (`++i` at `INT_MAX` overflows).
The first argument bounds the number of iterations. -/
def factorialLoop (n : Int) : Nat → Int → Nat → FactResult
  | 0, _, _ => FactResult.outOfFuel
  | fuel + 1, i, f =>
    if i ≤ n then
      if i = (INT_MAX : Int) then FactResult.signedOverflow
      else factorialLoop n fuel (i + 1) ((f * i.toNat) % SIZE_T_RANGE)
    else FactResult.returned f

/-- Function `factorial(int n)`, lines 11-19. -/
def factorial (n : Int) : FactResult :=
  factorialLoop n (n.toNat + 1) 1 1

end Factorial

namespace FwdList

open FixedAllocator

/-! ### `SimpleFwdList` (src/include/simple_fwdlist.h) -/

/-- Struct `Node<T>`: the element and the pointer to the next node. -/
structure Node (α : Type) where
  val_ : α
  next_ : Ptr
deriving DecidableEq, Repr

/-- Data members `before_` and `head_` of `SimpleFwdList`, and the nodes in memory:
`nodes` lists (address, node) pairs, the first pair with an address is the node stored
there. -/
structure SimpleFwdList (α : Type) where
  before_ : Ptr
  head_ : Ptr
  nodes : List (Ptr × Node α)
deriving DecidableEq, Repr

/-- The node stored at address `p`, if any. -/
def nodeAt {α : Type} (nodes : List (Ptr × Node α)) (p : Ptr) : Option (Node α) :=
  match nodes with
  | [] => none
  | (q, node) :: rest => if q = p then some node else nodeAt rest p

/-- Constructor, lines 92-95: `before_ = new Node_(T(), head_)` with `head_` null;
`b` is the address `new` returns and `dflt` is `T()`. -/
def SimpleFwdList.init {α : Type} (b : Ptr) (dflt : α) : SimpleFwdList α :=
  { before_ := b, head_ := nullptr, nodes := [(b, ⟨dflt, nullptr⟩)] }

/-- Member `before_begin()`: the iterator holding `before_`. -/
def SimpleFwdList.before_begin {α : Type} (l : SimpleFwdList α) : Ptr := l.before_

/-- Member `begin()`: the iterator holding `head_`. -/
def SimpleFwdList.begin {α : Type} (l : SimpleFwdList α) : Ptr := l.head_

/-- Member `push_front(val)`, lines 134-139; `node` is the address `alloc_.allocate(1)`
returns. -/
def SimpleFwdList.push_front {α : Type} (l : SimpleFwdList α) (node : Ptr) (val : α) :
    SimpleFwdList α :=
  { l with nodes := (node, ⟨val, l.head_⟩) :: l.nodes, head_ := node }

/-- Member `insert_after(pos, val)`, lines 145-156; `node` is the address
`alloc_.allocate(1)` returns.  Result: the list and the returned iterator; `none` when
`pos` holds no node (the source dereferences `pos.node_`). -/
def SimpleFwdList.insert_after {α : Type} (l : SimpleFwdList α) (node : Ptr) (pos : Ptr)
    (val : α) : Option (SimpleFwdList α × Ptr) :=
  match nodeAt l.nodes pos with
  | none => none
  | some posNode =>
    let nodes1 := (node, ⟨val, posNode.next_⟩) :: l.nodes
    let nodes2 := (pos, { posNode with next_ := node }) :: nodes1
    let l2 : SimpleFwdList α := { l with nodes := nodes2 }
    if pos = l.before_ then some ({ l2 with head_ := node }, node)
    else some (l2, node)

/-- Iteration `for (it = begin(); it != end(); ++it)` collecting `*it`, from the
iterator `it`; the first argument bounds the number of steps. -/
def iterate {α : Type} (nodes : List (Ptr × Node α)) : Nat → Ptr → List α
  | 0, _ => []
  | fuel + 1, it =>
    if it = nullptr then []
    else
      match nodeAt nodes it with
      | none => []
      | some node => node.val_ :: iterate nodes fuel node.next_

/-- The elements from `begin()` to `end()`. -/
def SimpleFwdList.elements {α : Type} (l : SimpleFwdList α) : List α :=
  iterate l.nodes (l.nodes.length + 1) l.head_

/-- Loop of main.cpp lines 42-46: `it = mylist.insert_after(it, i)` for the values
`vals`, the new nodes at the addresses `addrs`. -/
def insertChain {α : Type} : SimpleFwdList α → Ptr → List (Ptr × α) →
    Option (SimpleFwdList α × Ptr)
  | l, it, [] => some (l, it)
  | l, it, (node, val) :: rest =>
    match l.insert_after node it val with
    | none => none
    | some (l1, it1) => insertChain l1 it1 rest

end FwdList

namespace FixedAllocator

/-! ### Occupied runs -/

theorem Occupied.get {pool : List Ptr} {n i : Nat} (h : Occupied pool n i) (k : Nat)
    (hk : k < n) : ∃ q, q ≠ nullptr ∧ pool[i + k]? = some q := by
  obtain ⟨hlt, hne⟩ := h k hk
  refine ⟨pool[i + k], ?_, List.getElem?_eq_getElem hlt⟩
  intro e
  exact hne (by rw [List.getElem?_eq_getElem hlt, e])

theorem Occupied.of_get {pool : List Ptr} {n i : Nat}
    (h : ∀ k < n, ∃ q, q ≠ nullptr ∧ pool[i + k]? = some q) : Occupied pool n i := by
  intro k hk
  obtain ⟨q, hq, hq'⟩ := h k hk
  refine ⟨(List.getElem?_eq_some.1 hq').1, ?_⟩
  rw [hq']
  exact fun e => hq (Option.some.inj e)

/-! ### `std::find` -/

theorem findLoop_ge (v : Ptr) (l : List Ptr) (i : Nat) : i ≤ findLoop v l i := by
  induction l generalizing i with
  | nil => simp [findLoop]
  | cons x rest ih =>
    simp only [findLoop]
    split
    · exact le_rfl
    · exact le_trans (Nat.le_succ i) (ih (i + 1))

theorem findLoop_le (v : Ptr) (l : List Ptr) (i : Nat) : findLoop v l i ≤ i + l.length := by
  induction l generalizing i with
  | nil => simp [findLoop]
  | cons x rest ih =>
    simp only [findLoop, List.length_cons]
    split
    · omega
    · have := ih (i + 1); omega

theorem findLoop_spec (v : Ptr) (l : List Ptr) (i : Nat) :
    (∀ j, i ≤ j → j < findLoop v l i → l[j - i]? ≠ some v) ∧
    (findLoop v l i < i + l.length → l[findLoop v l i - i]? = some v) := by
  induction l generalizing i with
  | nil => simp [findLoop]
  | cons x rest ih =>
    simp only [findLoop, List.length_cons]
    split
    · rename_i hx
      constructor
      · intro j h1 h2; omega
      · intro _; simp [hx]
    · rename_i hx
      obtain ⟨h1, h2⟩ := ih (i + 1)
      have hge := findLoop_ge v rest (i + 1)
      constructor
      · intro j hj1 hj2
        rcases Nat.eq_or_lt_of_le hj1 with h | h
        · subst h; simpa using hx
        · have := h1 j h hj2
          have e : j - i = (j - (i + 1)) + 1 := by omega
          rw [e, List.getElem?_cons_succ]; exact this
      · intro hlt
        have := h2 (by omega)
        have e : findLoop v rest (i + 1) - i = (findLoop v rest (i + 1) - (i + 1)) + 1 := by omega
        rw [e, List.getElem?_cons_succ]; exact this

theorem find_ge (pool : List Ptr) (first : Nat) (v : Ptr) : first ≤ find pool first v :=
  findLoop_ge v _ first

theorem find_le (pool : List Ptr) (first : Nat) (v : Ptr) (h : first ≤ pool.length) :
    find pool first v ≤ pool.length := by
  have := findLoop_le v (pool.drop first) first
  simp only [List.length_drop] at this
  unfold find; omega

theorem find_get (pool : List Ptr) (first : Nat) (v : Ptr)
    (h : find pool first v < pool.length) : pool[find pool first v]? = some v := by
  have hge := find_ge pool first v
  have := (findLoop_spec v (pool.drop first) first).2
  simp only [List.length_drop, List.getElem?_drop] at this
  unfold find at *
  have := this (by omega)
  rwa [Nat.add_sub_cancel' hge] at this

theorem find_skip (pool : List Ptr) (first : Nat) (v : Ptr) (j : Nat)
    (h1 : first ≤ j) (h2 : j < find pool first v) : pool[j]? ≠ some v := by
  have := (findLoop_spec v (pool.drop first) first).1 j h1 h2
  simp only [List.getElem?_drop] at this
  rwa [Nat.add_sub_cancel' h1] at this

theorem find_eq_of (pool : List Ptr) (v : Ptr) (i : Nat) (hi : pool[i]? = some v)
    (hb : ∀ j < i, pool[j]? ≠ some v) : find pool 0 v = i := by
  have hlen : i < pool.length := by
    rcases List.getElem?_eq_some.1 hi with ⟨h, _⟩; exact h
  have hle := find_le pool 0 v (Nat.zero_le _)
  rcases Nat.lt_trichotomy (find pool 0 v) i with h | h | h
  · exact absurd (find_get pool 0 v (by omega)) (hb _ h)
  · exact h
  · exact absurd hi (find_skip pool 0 v i (Nat.zero_le _) h)

/-! ### `setRange` -/

theorem length_setRange (f : Nat → Ptr) (k i : Nat) (pool : List Ptr) :
    (setRange f k i pool).length = pool.length := by
  induction k generalizing i pool with
  | zero => rfl
  | succ k ih => simp [setRange, ih]

theorem getElem?_setRange (f : Nat → Ptr) (k i : Nat) (pool : List Ptr) (j : Nat) :
    (setRange f k i pool)[j]? =
      if i ≤ j ∧ j < i + k ∧ j < pool.length then some (f j) else pool[j]? := by
  induction k generalizing i pool with
  | zero => rw [if_neg (by omega)]; rfl
  | succ k ih =>
    simp only [setRange, ih, List.length_set, List.getElem?_set]
    by_cases h1 : i = j
    · subst h1
      by_cases h3 : i < pool.length
      · rw [if_neg (by omega), if_pos rfl, if_pos h3, if_pos (by omega)]
      · rw [if_neg (by omega), if_pos rfl, if_neg h3, if_neg (by omega),
          List.getElem?_eq_none (by omega)]
    · by_cases h2 : i + 1 ≤ j ∧ j < i + 1 + k ∧ j < pool.length
      · rw [if_pos h2, if_pos (by omega)]
      · rw [if_neg h2, if_neg h1, if_neg (by omega)]

theorem occupied_set_fill (pool : List Ptr) (i : Nat) (v : Ptr) (hv : v ≠ nullptr)
    (h : pool[i]? = some nullptr) : occupied (pool.set i v) = occupied pool + 1 := by
  induction pool generalizing i with
  | nil => simp at h
  | cons x rest ih =>
    cases i with
    | zero =>
      simp only [List.getElem?_cons_zero, Option.some.injEq] at h
      subst h
      simp [occupied, List.countP_cons, hv, nullptr] at *
      simp [hv]
    | succ i =>
      simp only [List.getElem?_cons_succ] at h
      have := ih i h
      simp only [occupied, List.set_cons_succ, List.countP_cons] at *
      omega

theorem occupied_set_clear (pool : List Ptr) (i : Nat) (q : Ptr) (hq : q ≠ nullptr)
    (h : pool[i]? = some q) : occupied (pool.set i nullptr) + 1 = occupied pool := by
  induction pool generalizing i with
  | nil => simp at h
  | cons x rest ih =>
    cases i with
    | zero =>
      simp only [List.getElem?_cons_zero, Option.some.injEq] at h
      subst h
      simp [occupied, List.countP_cons, nullptr] at *
      simp [hq]
    | succ i =>
      simp only [List.getElem?_cons_succ] at h
      have := ih i h
      simp only [occupied, List.set_cons_succ, List.countP_cons] at *
      omega

theorem occupied_setRange_fill (f : Nat → Ptr) (k i : Nat) (pool : List Ptr)
    (hf : ∀ j, i ≤ j → j < i + k → f j ≠ nullptr) (h : Fits pool k i) :
    occupied (setRange f k i pool) = occupied pool + k := by
  induction k generalizing i pool with
  | zero => rfl
  | succ k ih =>
    simp only [setRange]
    have h0 : pool[i]? = some nullptr := by simpa using h 0 (Nat.succ_pos k)
    rw [ih (i + 1) _ (fun j a b => hf j (by omega) (by omega)),
      occupied_set_fill pool i (f i) (hf i le_rfl (by omega)) h0]
    · omega
    · intro m hm
      rw [List.getElem?_set_ne (by omega)]
      have := h (m + 1) (by omega)
      rwa [show i + (m + 1) = i + 1 + m by omega] at this

theorem occupied_setRange_clear (k i : Nat) (pool : List Ptr) (h : Occupied pool k i) :
    occupied (setRange (fun _ => nullptr) k i pool) + k = occupied pool := by
  induction k generalizing i pool with
  | zero => rfl
  | succ k ih =>
    simp only [setRange]
    obtain ⟨q, hq, h0⟩ := h.get 0 (Nat.succ_pos k)
    have h0 : pool[i]? = some q := by simpa using h0
    have := occupied_set_clear pool i q hq h0
    have := ih (i + 1) (pool.set i nullptr) (by
      intro m hm
      rw [List.getElem?_set_ne (by omega), List.length_set]
      have := h (m + 1) (by omega)
      rwa [show i + (m + 1) = i + 1 + m by omega] at this)
    omega

/-! ### The loops in closed form -/

theorem firstFill_eq (sizeofT k : Nat) (s : State) :
    firstFill sizeofT k s =
      { ptr_ := s.ptr_,
        ptrPool_ := setRange (fun j => s.ptr_ + j * sizeofT) k s.poolSize_ s.ptrPool_,
        poolSize_ := s.poolSize_ + k } := by
  induction k generalizing s with
  | zero => rfl
  | succ k ih => simp only [firstFill, ih, setRange, State.mk.injEq, true_and]; omega

theorem markLoop_ptr (sizeofT index k i : Nat) (s : State) :
    (markLoop sizeofT index k i s).ptr_ = s.ptr_ := by
  induction k generalizing i s with
  | zero => rfl
  | succ k ih => simp only [markLoop, ih]

theorem markLoop_pool (sizeofT index k i : Nat) (s : State) :
    (markLoop sizeofT index k i s).ptrPool_ =
      setRange (fun j => s.ptr_ + j * sizeofT) k (index + i) s.ptrPool_ := by
  induction k generalizing i s with
  | zero => rfl
  | succ k ih => simp only [markLoop, ih, setRange]; rfl

theorem markLoop_poolSize (sizeofT index k i : Nat) (s : State)
    (h : s.poolSize_ + k < SIZE_T_RANGE) :
    (markLoop sizeofT index k i s).poolSize_ = s.poolSize_ + k := by
  induction k generalizing i s with
  | zero => rfl
  | succ k ih =>
    simp only [markLoop]
    have e : (s.poolSize_ + 1) % SIZE_T_RANGE = s.poolSize_ + 1 := Nat.mod_eq_of_lt (by omega)
    rw [ih]
    · simp only [e]; omega
    · simp only [e]; omega

theorem freeLoop_eq (k it : Nat) (s : State) (hb : it + k ≤ s.ptrPool_.length)
    (hk : k ≤ s.poolSize_) (hm : s.poolSize_ < SIZE_T_RANGE) :
    freeLoop k it s = Except.ok
      { ptr_ := s.ptr_,
        ptrPool_ := setRange (fun _ => nullptr) k it s.ptrPool_,
        poolSize_ := s.poolSize_ - k } := by
  induction k generalizing it s with
  | zero => rfl
  | succ k ih =>
    have e : (s.poolSize_ + SIZE_T_RANGE - 1) % SIZE_T_RANGE = s.poolSize_ - 1 := by
      rw [show s.poolSize_ + SIZE_T_RANGE - 1 = (s.poolSize_ - 1) + SIZE_T_RANGE by omega,
        Nat.add_mod_right]
      exact Nat.mod_eq_of_lt (by omega)
    simp only [freeLoop]
    rw [if_pos (by omega), ih]
    · simp only [e, setRange, Except.ok.injEq, State.mk.injEq, true_and]; omega
    · simp only [List.length_set]; omega
    · simp only [e]; omega
    · simp only [e]; omega

/-! ### The run search -/

theorem occupied_le_length (pool : List Ptr) : occupied pool ≤ pool.length :=
  List.countP_le_length _

theorem occupied_eq_zero (pool : List Ptr) (h : occupied pool = 0) (j : Nat)
    (hj : j < pool.length) : pool[j]? = some nullptr := by
  induction pool generalizing j with
  | nil => simp at hj
  | cons x rest ih =>
    simp only [occupied, List.countP_cons] at h ih
    cases j with
    | zero =>
      have hx : x = nullptr := by
        by_contra hx
        simp [hx] at h
      simp [hx]
    | succ j =>
      simp only [List.getElem?_cons_succ]
      exact ih (by omega) j (by simpa using hj)

theorem Fits.room {pool : List Ptr} {n j : Nat} (h : Fits pool n j) :
    occupied pool + n ≤ pool.length := by
  have h1 := occupied_setRange_fill (fun _ => 1) n j pool (fun _ _ _ => by simp [nullptr]) h
  have h2 := occupied_le_length (setRange (fun _ => 1) n j pool)
  rw [length_setRange] at h2
  omega

theorem Fits.bound {pool : List Ptr} {n j : Nat} (h : Fits pool n j) (hn : n ≠ 0) :
    j + n ≤ pool.length := by
  have := h (n - 1) (by omega)
  rcases List.getElem?_eq_some.1 this with ⟨hlt, _⟩
  omega

theorem probe_complete (pool : List Ptr) (index k found : Nat)
    (h : probe pool index k found = Probe.complete) :
    ∀ m < k, pool[index + found + m]? = some nullptr := by
  induction k generalizing found with
  | zero => intro m hm; omega
  | succ k ih =>
    simp only [probe] at h
    split at h
    · cases h
    · rename_i q hq
      split at h
      · cases h
      · rename_i hq0
        have hq0 : q = nullptr := by simpa using hq0
        intro m hm
        cases m with
        | zero => simpa [hq0] using hq
        | succ m =>
          have := ih (found + 1) h m (by omega)
          rwa [show index + (found + 1) + m = index + found + (m + 1) by omega] at this

theorem probe_mismatch (pool : List Ptr) (index k found : Nat)
    (h : probe pool index k found = Probe.mismatch) :
    ∃ m < k, pool[index + found + m]? ≠ some nullptr := by
  induction k generalizing found with
  | zero => simp [probe] at h
  | succ k ih =>
    simp only [probe] at h
    split at h
    · cases h
    · rename_i q hq
      split at h
      · rename_i hq0
        refine ⟨0, by omega, ?_⟩
        simp only [Nat.add_zero, hq]
        intro e; exact hq0 (Option.some.inj e)
      · obtain ⟨m, hm, hne⟩ := ih (found + 1) h
        exact ⟨m + 1, by omega, by
          rwa [show index + (found + 1) + m = index + found + (m + 1) by omega] at hne⟩

theorem probe_outOfBounds (pool : List Ptr) (index k found : Nat)
    (h : probe pool index k found = Probe.outOfBounds) :
    pool.length < index + found + k := by
  induction k generalizing found with
  | zero => simp [probe] at h
  | succ k ih =>
    simp only [probe] at h
    split at h
    · rename_i hnone
      have := List.getElem?_eq_none_iff.1 hnone
      omega
    · split at h
      · cases h
      · have := ih (found + 1) h; omega

theorem searchInv_init (pool : List Ptr) (n : Nat) (hn : n ≠ 0) :
    SearchInv pool n (find pool 0 nullptr) := by
  refine ⟨find_le pool 0 nullptr (Nat.zero_le _), find_get pool 0 nullptr, ?_⟩
  intro j hj hfit
  have := hfit 0 (by omega)
  exact find_skip pool 0 nullptr j (Nat.zero_le _) hj (by simpa using this)

theorem search_spec (pool : List Ptr) (n : Nat) (hn : n ≠ 0) (fuel it : Nat)
    (hinv : SearchInv pool n it) (hfuel : pool.length - it < fuel) :
    SearchPost pool n (search pool n fuel it) := by
  induction fuel generalizing it with
  | zero => omega
  | succ fuel ih =>
    obtain ⟨hle, hempty, hbefore⟩ := hinv
    simp only [search]
    by_cases hend : it = pool.length
    · rw [if_pos hend]
      intro j hfit
      have hb := hfit.bound hn
      exact hbefore j (by omega) hfit
    · rw [if_neg hend]
      have hlt : it < pool.length := by omega
      cases hp : probe pool it (n - 1) 1 with
      | complete =>
        refine ⟨?_, hbefore⟩
        intro k hk
        cases k with
        | zero => exact hempty hlt
        | succ k =>
          have := probe_complete pool it (n - 1) 1 hp k (by omega)
          rwa [show it + 1 + k = it + (k + 1) by omega] at this
      | mismatch =>
        obtain ⟨m, hm, hne⟩ := probe_mismatch pool it (n - 1) 1 hp
        have hnofit : ¬ Fits pool n it := fun hfit => hne (by
          have := hfit (1 + m) (by omega)
          rwa [show it + (1 + m) = it + 1 + m by omega] at this)
        have hge := find_ge pool (it + 1) nullptr
        have hle2 := find_le pool (it + 1) nullptr (by omega)
        apply ih
        · refine ⟨hle2, find_get pool (it + 1) nullptr, ?_⟩
          intro j hj hfit
          rcases Nat.lt_trichotomy j it with h | h | h
          · exact hbefore j h hfit
          · exact hnofit (h ▸ hfit)
          · have := hfit 0 (by omega)
            exact find_skip pool (it + 1) nullptr j (by omega) hj (by simpa using this)
        · omega
      | outOfBounds =>
        have hob := probe_outOfBounds pool it (n - 1) 1 hp
        intro j hfit
        have hb := hfit.bound hn
        rcases Nat.lt_or_ge j it with h | h
        · exact hbefore j h hfit
        · omega

/-! ### `allocate` -/

theorem size_t_range_eq : SIZE_T_RANGE = 18446744073709551616 := by
  norm_num [SIZE_T_RANGE]

theorem markLoop_eq (sizeofT index k : Nat) (s : State) :
    markLoop sizeofT index k 0 s =
      ⟨s.ptr_, setRange (fun j => s.ptr_ + j * sizeofT) k index s.ptrPool_,
        (markLoop sizeofT index k 0 s).poolSize_⟩ := by
  have h1 := markLoop_ptr sizeofT index k 0 s
  have h2 := markLoop_pool sizeofT index k 0 s
  rw [Nat.add_zero] at h2
  generalize markLoop sizeofT index k 0 s = r at h1 h2 ⊢
  cases r
  simp only at h1 h2
  rw [h1, h2]

/-- The run search inside `allocate` always comes to an end. -/
theorem allocate_terminates (Size sizeofT m : Nat) (s : State) (n : Nat) :
    (allocate Size sizeofT m s n).outcome ≠ Outcome.outOfFuel := by
  unfold allocate
  by_cases hn : n = 0
  · simp [hn]
  · simp only [hn, if_false]
    split
    · simp
    · split
      · split <;> simp
      · split
        · simp
        · have hs := search_spec s.ptrPool_ n hn (s.ptrPool_.length + 1) _
            (searchInv_init s.ptrPool_ n hn) (by omega)
          cases hr : search s.ptrPool_ n (s.ptrPool_.length + 1) (find s.ptrPool_ 0 nullptr) with
          | found idx => simp
          | exhausted => simp
          | outOfBounds => simp
          | outOfFuel => rw [hr] at hs; exact hs.elim

/-- A call of `allocate` that does not return an address leaves a well-formed state as
it was. -/
theorem allocate_state_of_fail (Size sizeofT m : Nat) (s : State) (n : Nat)
    (hwf : WellFormed Size s)
    (h : ∀ p, (allocate Size sizeofT m s n).outcome ≠ Outcome.returned p) :
    (allocate Size sizeofT m s n).state = s := by
  unfold allocate at h ⊢
  by_cases hn : n = 0
  · simp [hn]
  · simp only [hn, if_false] at h ⊢
    split
    · rfl
    · split
      · rename_i h0
        have hp : s.ptr_ = nullptr := by
          by_contra hc
          have := hwf.2.2.1 hc
          omega
        split
        · rename_i hm
          cases s
          simp only at hp ⊢
          rw [hm, hp]
        · rename_i hpre hm
          rw [if_neg hpre, if_pos h0] at h
          rw [if_neg hm] at h
          exact absurd rfl (h _)
      · split
        · rfl
        · rename_i hpre h0 hit
          rw [if_neg hpre, if_neg h0] at h
          rw [if_neg hit] at h
          cases hr : search s.ptrPool_ n (s.ptrPool_.length + 1) (find s.ptrPool_ 0 nullptr) with
          | found idx => rw [hr] at h; exact absurd rfl (h _)
          | exhausted => rfl
          | outOfBounds => rfl
          | outOfFuel => rfl

/-- Shape of a successful `allocate(n)`, `n ≥ 1`, on a well-formed state: the run starts
at the first index `idx` where `n` empty slots follow each other, the block base is the
old one (or the fresh `malloc` result when the pool was empty). -/
theorem allocate_returned (Size sizeofT m : Nat) (s : State) (n : Nat) (p : Ptr)
    (hwf : WellFormed Size s) (hn : n ≠ 0) (hlt : n < SIZE_T_RANGE)
    (h : (allocate Size sizeofT m s n).outcome = Outcome.returned p) :
    ∃ idx base c, Fits s.ptrPool_ n idx ∧ (∀ j < idx, ¬ Fits s.ptrPool_ n j) ∧
      base ≠ nullptr ∧ base = (if s.poolSize_ = 0 then m else s.ptr_) ∧
      (Size ≤ INT_MAX → c = s.poolSize_ + n) ∧
      allocate Size sizeofT m s n =
        ⟨Outcome.returned (base + idx * sizeofT),
          ⟨base, setRange (fun j => base + j * sizeofT) n idx s.ptrPool_, c⟩⟩ := by
  obtain ⟨hlen, hocc, hblk⟩ := hwf
  unfold allocate at h ⊢
  simp only [hn, if_false] at h ⊢
  by_cases hpre : exceedsCapacity Size s.poolSize_ n
  · rw [if_pos hpre] at h; cases h
  · rw [if_neg hpre] at h ⊢
    by_cases h0 : s.poolSize_ = 0
    · simp only [if_pos h0] at h ⊢
      by_cases hm : m = nullptr
      · rw [if_pos hm] at h; cases h
      · rw [if_neg hm]
        have hnS : n ≤ Size := by
          unfold exceedsCapacity at hpre
          rw [h0, Nat.zero_add, Nat.mod_eq_of_lt hlt] at hpre
          omega
        refine ⟨0, m, n, ?_, fun j hj => by omega, hm, rfl, fun _ => by omega, ?_⟩
        · intro k hk
          exact occupied_eq_zero _ (by omega) _ (by omega)
        · rw [firstFill_eq]
          simp [h0]
    · simp only [if_neg h0] at h ⊢
      by_cases hit : find s.ptrPool_ 0 nullptr = s.ptrPool_.length
      · rw [if_pos hit] at h; cases h
      · rw [if_neg hit] at h ⊢
        have hs := search_spec s.ptrPool_ n hn (s.ptrPool_.length + 1) _
          (searchInv_init s.ptrPool_ n hn) (by omega)
        cases hr : search s.ptrPool_ n (s.ptrPool_.length + 1) (find s.ptrPool_ 0 nullptr) with
        | found idx =>
          rw [hr] at hs
          obtain ⟨hfit, hmin⟩ := hs
          have hroom := hfit.room
          refine ⟨idx, s.ptr_, (markLoop sizeofT idx n 0 s).poolSize_, hfit, hmin,
            hblk.2 (by omega), rfl, ?_, ?_⟩
          · intro hS
            apply markLoop_poolSize
            rw [size_t_range_eq]
            simp only [INT_MAX] at hS
            omega
          · rw [← markLoop_eq]
        | exhausted => rw [hr] at h; cases h
        | outOfBounds => rw [hr] at h; cases h
        | outOfFuel => rw [hr] at h; cases h

/-- First fit: when a run of `n` empty slots exists, the pre-check passes and the block
can be acquired if it is needed, `allocate(n)` returns an address. -/
theorem allocate_succeeds (Size sizeofT m : Nat) (s : State) (n j : Nat)
    (hn : n ≠ 0) (hS : Size ≤ INT_MAX)
    (hcap : s.poolSize_ + n ≤ Size) (hfit : Fits s.ptrPool_ n j)
    (hm : s.poolSize_ = 0 → m ≠ nullptr) :
    ∃ p, (allocate Size sizeofT m s n).outcome = Outcome.returned p := by
  have hpre : ¬ exceedsCapacity Size s.poolSize_ n := by
    unfold exceedsCapacity
    rw [Nat.mod_eq_of_lt (by rw [size_t_range_eq]; simp only [INT_MAX] at hS; omega)]
    omega
  unfold allocate
  simp only [hn, if_false]
  rw [if_neg hpre]
  by_cases h0 : s.poolSize_ = 0
  · rw [if_pos h0]
    rw [if_neg (hm h0)]
    exact ⟨_, rfl⟩
  · rw [if_neg h0]
    have hj : s.ptrPool_[j]? = some nullptr := by simpa using hfit 0 (by omega)
    have hb := hfit.bound hn
    have hit : find s.ptrPool_ 0 nullptr ≠ s.ptrPool_.length := by
      intro e
      exact find_skip s.ptrPool_ 0 nullptr j (Nat.zero_le _) (by omega) hj
    rw [if_neg hit]
    have hs := search_spec s.ptrPool_ n hn (s.ptrPool_.length + 1) _
      (searchInv_init s.ptrPool_ n hn) (by omega)
    cases hr : search s.ptrPool_ n (s.ptrPool_.length + 1) (find s.ptrPool_ 0 nullptr) with
    | found idx => exact ⟨_, rfl⟩
    | exhausted => rw [hr] at hs; exact absurd hfit (hs j)
    | outOfBounds => rw [hr] at hs; exact absurd hfit (hs j)
    | outOfFuel => rw [hr] at hs; exact hs.elim

theorem mul_sizeof_inj {sizeofT : Nat} (hsz : 0 < sizeofT) {base i j : Nat}
    (h : base + i * sizeofT = base + j * sizeofT) : i = j :=
  Nat.eq_of_mul_eq_mul_right hsz (Nat.add_left_cancel h)

theorem slot_addr_ne_null {base : Ptr} (h : base ≠ nullptr) (k sizeofT : Nat) :
    base + k * sizeofT ≠ nullptr :=
  fun e => h (Nat.eq_zero_of_add_eq_zero_right e)

theorem getElem?_setRange_in (f : Nat → Ptr) (n i : Nat) (pool : List Ptr) (k : Nat)
    (hb : i + n ≤ pool.length) (hk : k < n) :
    (setRange f n i pool)[i + k]? = some (f (i + k)) := by
  rw [getElem?_setRange, if_pos (by omega)]

theorem getElem?_setRange_out (f : Nat → Ptr) (n i : Nat) (pool : List Ptr) (j : Nat)
    (hj : j < i ∨ i + n ≤ j) : (setRange f n i pool)[j]? = pool[j]? := by
  rw [getElem?_setRange, if_neg (by omega)]

/-- Any state: when the sum `poolSize_ + n` does not wrap and exceeds `Size`, the
pre-check of line 45 rejects the request and nothing changes. -/
theorem allocate_capacity_exceeded (Size sizeofT m : Nat) (s : State) (n : Nat)
    (hn : n ≠ 0) (hsum : s.poolSize_ + n < SIZE_T_RANGE) (hcap : s.poolSize_ + n > Size) :
    allocate Size sizeofT m s n = ⟨Outcome.badAlloc, s⟩ := by
  have hpre : exceedsCapacity Size s.poolSize_ n := by
    unfold exceedsCapacity
    rw [Nat.mod_eq_of_lt hsum]
    exact hcap
  unfold allocate
  rw [if_neg hn, if_pos hpre]

/-! ### Contiguity, capacity check, first fit -/

/-- C1: on a well-formed state and for `n ≥ 1`, when `allocate(n)` returns the address
of slot `i` (block base plus `i` elements), the slots `i .. i+n-1` were all empty
before the call and are all occupied after it. -/
theorem allocate_run_empty_before_occupied_after (Size sizeofT m : Nat) (s : State)
    (n i : Nat) (hsz : 0 < sizeofT) (hwf : WellFormed Size s) (hn : 1 ≤ n)
    (hlt : n < SIZE_T_RANGE)
    (h : (allocate Size sizeofT m s n).outcome =
      Outcome.returned ((allocate Size sizeofT m s n).state.ptr_ + i * sizeofT)) :
    Fits s.ptrPool_ n i ∧ Occupied (allocate Size sizeofT m s n).state.ptrPool_ n i := by
  obtain ⟨idx, base, c, hfit, -, hbase, -, -, heq⟩ :=
    allocate_returned Size sizeofT m s n _ hwf (by omega) hlt h
  rw [heq] at h ⊢
  simp only [Outcome.returned.injEq] at h
  have hi : idx = i := mul_sizeof_inj hsz h
  subst hi
  refine ⟨hfit, Occupied.of_get fun k hk =>
    ⟨base + (idx + k) * sizeofT, slot_addr_ne_null hbase _ _, ?_⟩⟩
  exact getElem?_setRange_in _ n idx s.ptrPool_ k (hfit.bound (by omega)) hk

theorem allocate_run_empty_before_occupied_after_witness :
    WellFormed 4 ⟨1000, [0, 1004, 0, 0], 1⟩ ∧
    Fits [0, 1004, 0, 0] 2 2 ∧
    Occupied (allocate 4 4 0 ⟨1000, [0, 1004, 0, 0], 1⟩ 2).state.ptrPool_ 2 2 :=
  ⟨by decide,
    allocate_run_empty_before_occupied_after 4 4 0 ⟨1000, [0, 1004, 0, 0], 1⟩ 2 2
      (by decide) (by decide) (by decide) (by decide) (by decide)⟩

/-- C2 (failing input): `Size = 2`, both slots taken by `allocate(2)`, then
`allocate(2^64 - 2)`.  The sum `2 + (2^64 - 2)` exceeds `Size`, but it wraps to `0` in
`std::size_t` and the pre-check of line 45 lets the request through; the table is full,
`std::find` returns `end()` and the call stops at the assertion of line 68 instead of
throwing `std::bad_alloc`. -/
theorem allocate_wrapped_sum_hits_assert :
    allocate 2 4 1000 (fresh 2) 2 = ⟨Outcome.returned 1000, ⟨1000, [1000, 1004], 2⟩⟩ ∧
    1 ≤ 18446744073709551614 ∧ 18446744073709551614 < SIZE_T_RANGE ∧
    (allocate 2 4 1000 (fresh 2) 2).state.poolSize_ + 18446744073709551614 > 2 ∧
    ¬ exceedsCapacity 2 (allocate 2 4 1000 (fresh 2) 2).state.poolSize_ 18446744073709551614 ∧
    find (allocate 2 4 1000 (fresh 2) 2).state.ptrPool_ 0 nullptr = 2 ∧
    allocate 2 4 0 (allocate 2 4 1000 (fresh 2) 2).state 18446744073709551614 =
      ⟨Outcome.assertFailed, ⟨1000, [1000, 1004], 2⟩⟩ ∧
    (allocate 2 4 0 (allocate 2 4 1000 (fresh 2) 2).state 18446744073709551614).outcome
      ≠ Outcome.badAlloc := by
  decide

/-- C4 (counterexample): in the empty state of a `Size = 4` allocator slot 0 starts a
free run of length 1 and `0 + 1 ≤ 4`, yet `allocate(1)` throws `std::bad_alloc` when
`std::malloc` returns null. -/
theorem first_fit_needs_block :
    WellFormed 4 (fresh 4) ∧ (fresh 4).poolSize_ + 1 ≤ 4 ∧ Fits (fresh 4).ptrPool_ 1 0 ∧
    allocate 4 4 nullptr (fresh 4) 1 = ⟨Outcome.badAlloc, fresh 4⟩ := by
  decide

/-- C4 (amended): first fit.  On a well-formed state, for `n ≥ 1` with
`poolSize_ + n ≤ Size`, when some run of `n` empty slots exists and the block can be
acquired if the pool is empty, `allocate(n)` returns the address of the smallest index
`i` that starts such a run (`i = 0` in the empty state), marks exactly the slots
`i .. i+n-1` occupied and adds `n` to the occupancy. -/
theorem allocate_first_fit (Size sizeofT m : Nat) (s : State) (n j : Nat)
    (hwf : WellFormed Size s) (hS : Size ≤ INT_MAX) (hn : 1 ≤ n)
    (hcap : s.poolSize_ + n ≤ Size) (hfit : Fits s.ptrPool_ n j)
    (hm : s.poolSize_ = 0 → m ≠ nullptr) :
    ∃ i, Fits s.ptrPool_ n i ∧ (∀ j, Fits s.ptrPool_ n j → i ≤ j) ∧
      (s.poolSize_ = 0 → i = 0) ∧
      (allocate Size sizeofT m s n).outcome =
        Outcome.returned ((allocate Size sizeofT m s n).state.ptr_ + i * sizeofT) ∧
      Occupied (allocate Size sizeofT m s n).state.ptrPool_ n i ∧
      (∀ k, k < i ∨ i + n ≤ k →
        (allocate Size sizeofT m s n).state.ptrPool_[k]? = s.ptrPool_[k]?) ∧
      (allocate Size sizeofT m s n).state.poolSize_ = s.poolSize_ + n := by
  have hn0 : n ≠ 0 := by omega
  have hlt : n < SIZE_T_RANGE := by
    rw [size_t_range_eq]; simp only [INT_MAX] at hS; omega
  obtain ⟨p, hp⟩ := allocate_succeeds Size sizeofT m s n j hn0 hS hcap hfit hm
  obtain ⟨idx, base, c, hfit', hmin, hbase, -, hc, heq⟩ :=
    allocate_returned Size sizeofT m s n p hwf hn0 hlt hp
  have hmin' : ∀ j, Fits s.ptrPool_ n j → idx ≤ j := by
    intro j hj
    by_contra hlt'
    exact hmin j (by omega) hj
  refine ⟨idx, hfit', hmin', ?_, ?_, ?_, ?_, ?_⟩
  · intro h0
    have hall : Fits s.ptrPool_ n 0 := by
      intro k hk
      exact occupied_eq_zero _ (by rw [← hwf.2.1]; exact h0) _ (by
        rw [hwf.1]; omega)
    have := hmin' 0 hall
    omega
  · rw [heq]
  · rw [heq]
    exact Occupied.of_get fun k hk => ⟨base + (idx + k) * sizeofT,
      slot_addr_ne_null hbase _ _, getElem?_setRange_in _ n idx s.ptrPool_ k (hfit'.bound hn0) hk⟩
  · rw [heq]
    exact fun k hk => getElem?_setRange_out _ n idx s.ptrPool_ k hk
  · rw [heq]
    exact hc hS

theorem allocate_first_fit_witness :
    Fits [0, 1004, 0, 0] 2 2 ∧
    ∃ i, Fits [0, 1004, 0, 0] 2 i ∧ (∀ j, Fits [0, 1004, 0, 0] 2 j → i ≤ j) ∧
      ((1 : Nat) = 0 → i = 0) ∧
      (allocate 4 4 0 ⟨1000, [0, 1004, 0, 0], 1⟩ 2).outcome =
        Outcome.returned ((allocate 4 4 0 ⟨1000, [0, 1004, 0, 0], 1⟩ 2).state.ptr_ + i * 4) ∧
      Occupied (allocate 4 4 0 ⟨1000, [0, 1004, 0, 0], 1⟩ 2).state.ptrPool_ 2 i ∧
      (∀ k, k < i ∨ i + 2 ≤ k →
        (allocate 4 4 0 ⟨1000, [0, 1004, 0, 0], 1⟩ 2).state.ptrPool_[k]? =
          [0, 1004, 0, 0][k]?) ∧
      (allocate 4 4 0 ⟨1000, [0, 1004, 0, 0], 1⟩ 2).state.poolSize_ = 1 + 2 :=
  ⟨by decide,
    allocate_first_fit 4 4 0 ⟨1000, [0, 1004, 0, 0], 1⟩ 2 2
      (by decide) (by decide) (by decide) (by decide) (by decide) (by decide)⟩

/-- C6 (counterexample): in the fragmentation scenario (block at address 1000, 4-byte
elements) slot 1 is occupied, slots 0, 2, 3 are empty, and `allocate(2)` does not fail:
it returns address 1008, slot 2. -/
theorem fragmentation_scenario_does_not_fail :
    (allocate 4 4 1000 (fresh 4) 1).outcome = Outcome.returned 1000 ∧
    (allocate 4 4 0 (allocate 4 4 1000 (fresh 4) 1).state 1).outcome
      = Outcome.returned (1000 + 1 * 4) ∧
    fragmentationScenario 4 1000 0 = ⟨1000, [0, 1004, 0, 0], 1⟩ ∧
    (allocate 4 4 0 (fragmentationScenario 4 1000 0) 2).outcome
      = Outcome.returned (1000 + 2 * 4) ∧
    (allocate 4 4 0 (fragmentationScenario 4 1000 0) 2).outcome ≠ Outcome.badAlloc := by
  decide

/-- C6 (amended): with `Size = 4`, after `allocate(1)` (slot 0), `allocate(1)` (slot 1)
and `deallocate` of the slot-0 address with `n = 1`, slot 1 is occupied and slots
0, 2, 3 are empty; `allocate(2)` succeeds and returns the address of slot 2, because
slots 2 and 3 are a run of two empty slots.  Afterwards slots 1, 2, 3 are occupied. -/
theorem fragmentation_scenario_allocates_slot_two (sizeofT m m2 m3 : Nat)
    (hsz : 0 < sizeofT) (hm : m ≠ nullptr) :
    (allocate 4 sizeofT m (fresh 4) 1).outcome = Outcome.returned m ∧
    (allocate 4 sizeofT m2 (allocate 4 sizeofT m (fresh 4) 1).state 1).outcome
      = Outcome.returned (m + 1 * sizeofT) ∧
    fragmentationScenario sizeofT m m2 = ⟨m, [0, m + 1 * sizeofT, 0, 0], 1⟩ ∧
    allocate 4 sizeofT m3 (fragmentationScenario sizeofT m m2) 2 =
      ⟨Outcome.returned (m + 2 * sizeofT),
        ⟨m, [0, m + 1 * sizeofT, m + 2 * sizeofT, m + 3 * sizeofT], 3⟩⟩ := by
  have hm0 : m ≠ 0 := hm
  have hs0 : sizeofT ≠ 0 := by omega
  have h1 : ¬ (m + sizeofT = 0) := by omega
  have e1 : allocate 4 sizeofT m (fresh 4) 1 = ⟨Outcome.returned m, ⟨m, [m, 0, 0, 0], 1⟩⟩ := by
    simp [allocate, exceedsCapacity, fresh, firstFill, SIZE_T_RANGE, nullptr, hm0]
  have e2 : allocate 4 sizeofT m2 ⟨m, [m, 0, 0, 0], 1⟩ 1 =
      ⟨Outcome.returned (m + 1 * sizeofT), ⟨m, [m, m + 1 * sizeofT, 0, 0], 2⟩⟩ := by
    simp [allocate, exceedsCapacity, find, findLoop, search, probe, markLoop, SIZE_T_RANGE, nullptr, hm0]
  have e3 : deallocate ⟨m, [m, m + 1 * sizeofT, 0, 0], 2⟩ m 1 =
      ⟨Outcome.finished, ⟨m, [0, m + 1 * sizeofT, 0, 0], 1⟩⟩ := by
    have hfind : find [m, m + 1 * sizeofT, 0, 0] 0 m = 0 := by simp [find, findLoop]
    unfold deallocate
    simp only [hfind]
    rw [if_neg (by simp), freeLoop_eq 1 0 _ (by simp) (by simp) (by rw [size_t_range_eq]; simp)]
    simp [setRange, nullptr]
  have e4 : allocate 4 sizeofT m3 ⟨m, [0, m + 1 * sizeofT, 0, 0], 1⟩ 2 =
      ⟨Outcome.returned (m + 2 * sizeofT),
        ⟨m, [0, m + 1 * sizeofT, m + 2 * sizeofT, m + 3 * sizeofT], 3⟩⟩ := by
    simp [allocate, exceedsCapacity, find, findLoop, search, probe, markLoop, SIZE_T_RANGE, nullptr, hm0, h1,
      hs0]
  have e5 : fragmentationScenario sizeofT m m2 = ⟨m, [0, m + 1 * sizeofT, 0, 0], 1⟩ := by
    unfold fragmentationScenario
    rw [e1, e2, e3]
  rw [e5, e1]
  exact ⟨rfl, by rw [e2], rfl, e4⟩

theorem fragmentation_scenario_allocates_slot_two_witness :
    (0 < 4 ∧ (1000 : Nat) ≠ nullptr) ∧
    fragmentationScenario 4 1000 0 = ⟨1000, [0, 1000 + 1 * 4, 0, 0], 1⟩ ∧
    allocate 4 4 0 (fragmentationScenario 4 1000 0) 2 =
      ⟨Outcome.returned (1000 + 2 * 4),
        ⟨1000, [0, 1000 + 1 * 4, 1000 + 2 * 4, 1000 + 3 * 4], 3⟩⟩ :=
  ⟨by decide,
    (fragmentation_scenario_allocates_slot_two 4 1000 0 0 (by decide) (by decide)).2.2⟩

/-! ### `deallocate` -/

theorem Occupied.end_le {pool : List Ptr} {n i : Nat} (h : Occupied pool n i) (hn : n ≠ 0) :
    i + n ≤ pool.length := by
  have := (h (n - 1) (by omega)).1
  omega

theorem Occupied.count {pool : List Ptr} {n i : Nat} (h : Occupied pool n i) :
    n ≤ occupied pool := by
  have := occupied_setRange_clear n i pool h
  omega

theorem int_max_lt_size_t_range {Size : Nat} (hS : Size ≤ INT_MAX) : Size < SIZE_T_RANGE := by
  rw [size_t_range_eq]; simp only [INT_MAX] at hS; omega

/-- Releasing a run of `n ≥ 1` occupied slots that starts at slot `i`, through the
address of slot `i`, in a well-formed state whose occupied markers hold their own
slot address. -/
theorem deallocate_run (Size sizeofT : Nat) (s : State) (i n : Nat) (hsz : 0 < sizeofT)
    (hwf : WellFormed Size s) (hal : SlotsAligned sizeofT s) (hS : Size ≤ INT_MAX)
    (hn : n ≠ 0) (hrun : Occupied s.ptrPool_ n i) :
    deallocate s (s.ptr_ + i * sizeofT) n =
      ⟨Outcome.finished,
        ⟨if s.poolSize_ - n = 0 then nullptr else s.ptr_,
          setRange (fun _ => nullptr) n i s.ptrPool_, s.poolSize_ - n⟩⟩ := by
  obtain ⟨hlen, hocc, hblk⟩ := hwf
  have hb := hrun.end_le hn
  have hcnt := hrun.count
  have hbase : s.ptr_ ≠ nullptr := hblk.2 (by omega)
  have hslot : s.ptrPool_[i]? = some (s.ptr_ + i * sizeofT) := by
    obtain ⟨q, hq, hq'⟩ := hrun.get 0 (by omega)
    rw [Nat.add_zero] at hq'
    rcases hal i (by omega) with h | h
    · rw [h] at hq'; exact absurd (Option.some.inj hq').symm hq
    · exact h
  have hfind : find s.ptrPool_ 0 (s.ptr_ + i * sizeofT) = i := by
    apply find_eq_of _ _ _ hslot
    intro j hj e
    rcases hal j (by omega) with h | h
    · rw [h] at e
      exact slot_addr_ne_null hbase i sizeofT (Option.some.inj e).symm
    · rw [h] at e
      have := mul_sizeof_inj hsz (Option.some.inj e)
      omega
  have hfree := freeLoop_eq n i s hb (by omega)
    (by have := int_max_lt_size_t_range hS; have := occupied_le_length s.ptrPool_; omega)
  unfold deallocate
  simp only [hfind]
  rw [if_neg (by omega), hfree]
  by_cases hz : s.poolSize_ - n = 0
  · simp only [hz, if_true]
  · simp only [hz, if_false]

/-- C8: in a well-formed state whose occupied markers hold their slot address, for a
live run of `n ≥ 1` slots `i .. i+n-1` handed out at the address `p` of slot `i`,
`deallocate(p, n)` returns, empties exactly the slots `i .. i+n-1`, leaves every other
marker as it was, lowers the occupancy by exactly `n`, and `data()` is null afterwards
if and only if the resulting occupancy is 0 (otherwise the block is kept). -/
theorem deallocate_releases_run (Size sizeofT : Nat) (s : State) (p : Ptr) (i n : Nat)
    (hsz : 0 < sizeofT) (hwf : WellFormed Size s) (hal : SlotsAligned sizeofT s)
    (hS : Size ≤ INT_MAX) (hn : 1 ≤ n) (hrun : Occupied s.ptrPool_ n i)
    (hp : p = s.ptr_ + i * sizeofT) :
    (deallocate s p n).outcome = Outcome.finished ∧
    Fits (deallocate s p n).state.ptrPool_ n i ∧
    (∀ j, j < i ∨ i + n ≤ j → (deallocate s p n).state.ptrPool_[j]? = s.ptrPool_[j]?) ∧
    size (deallocate s p n).state + n = size s ∧
    (data (deallocate s p n).state = nullptr ↔ size (deallocate s p n).state = 0) ∧
    (size (deallocate s p n).state ≠ 0 → data (deallocate s p n).state = data s) := by
  have hn0 : n ≠ 0 := by omega
  subst hp
  rw [deallocate_run Size sizeofT s i n hsz hwf hal hS hn0 hrun]
  have hb := hrun.end_le hn0
  have hcnt := hrun.count
  obtain ⟨hlen, hocc, hblk⟩ := hwf
  refine ⟨rfl, ?_, ?_, ?_, ?_, ?_⟩
  · exact fun k hk => getElem?_setRange_in _ n i s.ptrPool_ k hb hk
  · exact fun j hj => getElem?_setRange_out _ n i s.ptrPool_ j hj
  · simp only [size]; omega
  · simp only [data, size]
    by_cases hz : s.poolSize_ - n = 0
    · simp [hz]
    · simp only [hz, if_false, iff_false]
      exact hblk.2 (by omega)
  · simp only [data, size]
    intro hz
    rw [if_neg hz]

theorem deallocate_releases_run_witness :
    (WellFormed 4 ⟨1000, [1000, 1004, 1008, 0], 3⟩ ∧
      SlotsAligned 4 ⟨1000, [1000, 1004, 1008, 0], 3⟩ ∧ Occupied [1000, 1004, 1008, 0] 2 1) ∧
    (deallocate ⟨1000, [1000, 1004, 1008, 0], 3⟩ 1004 2).outcome = Outcome.finished ∧
    Fits (deallocate ⟨1000, [1000, 1004, 1008, 0], 3⟩ 1004 2).state.ptrPool_ 2 1 ∧
    (∀ j, j < 1 ∨ 1 + 2 ≤ j →
      (deallocate ⟨1000, [1000, 1004, 1008, 0], 3⟩ 1004 2).state.ptrPool_[j]? =
        [1000, 1004, 1008, 0][j]?) ∧
    size (deallocate ⟨1000, [1000, 1004, 1008, 0], 3⟩ 1004 2).state + 2 = 3 ∧
    (data (deallocate ⟨1000, [1000, 1004, 1008, 0], 3⟩ 1004 2).state = nullptr ↔
      size (deallocate ⟨1000, [1000, 1004, 1008, 0], 3⟩ 1004 2).state = 0) ∧
    (size (deallocate ⟨1000, [1000, 1004, 1008, 0], 3⟩ 1004 2).state ≠ 0 →
      data (deallocate ⟨1000, [1000, 1004, 1008, 0], 3⟩ 1004 2).state = 1000) :=
  ⟨by decide,
    deallocate_releases_run 4 4 ⟨1000, [1000, 1004, 1008, 0], 3⟩ 1004 1 2
      (by decide) (by decide) (by decide) (by decide) (by decide) (by decide) (by decide)⟩

/-! ### Preservation of the representation invariant -/

theorem allocate_zero (Size sizeofT m : Nat) (s : State) :
    allocate Size sizeofT m s 0 = ⟨Outcome.returned nullptr, s⟩ := by
  simp [allocate]

theorem wellFormed_fill {Size sizeofT : Nat} {s : State} {n idx : Nat} {base : Ptr}
    (hwf : WellFormed Size s) (hn : n ≠ 0) (hfit : Fits s.ptrPool_ n idx)
    (hbase : base ≠ nullptr) :
    WellFormed Size
      ⟨base, setRange (fun j => base + j * sizeofT) n idx s.ptrPool_, s.poolSize_ + n⟩ := by
  obtain ⟨hlen, hocc, -⟩ := hwf
  refine ⟨by simp only [length_setRange]; exact hlen, ?_, ?_⟩
  · simp only
    rw [occupied_setRange_fill _ n idx s.ptrPool_
      (fun j _ _ => slot_addr_ne_null hbase j sizeofT) hfit, hocc]
  · simp only
    exact ⟨fun _ => by omega, fun _ => hbase⟩

theorem slotsAligned_fill {Size sizeofT : Nat} {s : State} {n idx : Nat} {base : Ptr}
    (hwf : WellFormed Size s) (hal : SlotsAligned sizeofT s)
    (hbase : base = if s.poolSize_ = 0 then base else s.ptr_) (c : Nat) :
    SlotsAligned sizeofT
      ⟨base, setRange (fun j => base + j * sizeofT) n idx s.ptrPool_, c⟩ := by
  intro j hj
  simp only [length_setRange] at hj ⊢
  rw [getElem?_setRange]
  by_cases hin : idx ≤ j ∧ j < idx + n ∧ j < s.ptrPool_.length
  · rw [if_pos hin]; exact Or.inr rfl
  · rw [if_neg hin]
    by_cases h0 : s.poolSize_ = 0
    · exact Or.inl (occupied_eq_zero _ (by rw [← hwf.2.1]; exact h0) j hj)
    · rw [if_neg h0] at hbase
      rw [hbase]
      exact hal j hj

/-- Every call of `allocate` keeps a well-formed, slot-aligned state well-formed and
slot-aligned, whatever its outcome. -/
theorem allocate_preserves (Size sizeofT m : Nat) (s : State) (n : Nat)
    (hwf : WellFormed Size s) (hal : SlotsAligned sizeofT s) (hS : Size ≤ INT_MAX)
    (hlt : n < SIZE_T_RANGE) :
    WellFormed Size (allocate Size sizeofT m s n).state ∧
      SlotsAligned sizeofT (allocate Size sizeofT m s n).state := by
  by_cases hr : ∃ p, (allocate Size sizeofT m s n).outcome = Outcome.returned p
  · by_cases hn : n = 0
    · subst hn; rw [allocate_zero]; exact ⟨hwf, hal⟩
    · obtain ⟨p, hp⟩ := hr
      obtain ⟨idx, base, c, hfit, -, hbase, hb, hc, heq⟩ :=
        allocate_returned Size sizeofT m s n p hwf hn hlt hp
      rw [heq, hc hS]
      refine ⟨wellFormed_fill hwf hn hfit hbase, slotsAligned_fill hwf hal ?_ _⟩
      by_cases h0 : s.poolSize_ = 0
      · rw [if_pos h0]
      · rw [if_neg h0]; rw [if_neg h0] at hb; exact hb
  · rw [allocate_state_of_fail Size sizeofT m s n hwf (fun p hp => hr ⟨p, hp⟩)]
    exact ⟨hwf, hal⟩

theorem setRange_clear_fill (f : Nat → Ptr) (n idx : Nat) (pool : List Ptr)
    (hfit : Fits pool n idx) :
    setRange (fun _ => nullptr) n idx (setRange f n idx pool) = pool := by
  apply List.ext_getElem?
  intro j
  rw [getElem?_setRange, length_setRange]
  by_cases hin : idx ≤ j ∧ j < idx + n ∧ j < pool.length
  · rw [if_pos hin]
    have := hfit (j - idx) (by omega)
    rw [Nat.add_sub_cancel' hin.1] at this
    exact this.symm
  · rw [if_neg hin, getElem?_setRange, if_neg hin]

/-! ### Round trip -/

/-- C9 (counterexample): `Size = 10`; `allocate(10)` succeeds with the block at address
1000, `deallocate(1000, 10)` brings back the fresh state, and the repeated
`allocate(10)` throws `std::bad_alloc` when `std::malloc` returns null this time. -/
theorem round_trip_repeat_needs_block :
    WellFormed 10 (fresh 10) ∧
    (allocate 10 4 1000 (fresh 10) 10).outcome = Outcome.returned 1000 ∧
    deallocate (allocate 10 4 1000 (fresh 10) 10).state 1000 10
      = ⟨Outcome.finished, fresh 10⟩ ∧
    (allocate 10 4 nullptr
      (deallocate (allocate 10 4 1000 (fresh 10) 10).state 1000 10).state 10).outcome
      = Outcome.badAlloc := by
  decide

/-- C9 (amended): round trip.  On a well-formed state (occupied markers holding their
slot address), when `allocate(n)`, `n ≥ 1`, returns `p`, the immediately following
`deallocate(p, n)` returns and restores the state before the allocation: the same
occupancy, the same slot table and the same block pointer, null when the occupancy is
back to 0.  Repeating `allocate(n)` then succeeds again, provided the block can be
acquired again when the pool is empty. -/
theorem allocate_deallocate_round_trip (Size sizeofT m : Nat) (s : State) (n : Nat) (p : Ptr)
    (hsz : 0 < sizeofT) (hwf : WellFormed Size s) (hal : SlotsAligned sizeofT s)
    (hS : Size ≤ INT_MAX) (hn : 1 ≤ n) (hlt : n < SIZE_T_RANGE)
    (h : (allocate Size sizeofT m s n).outcome = Outcome.returned p) :
    deallocate (allocate Size sizeofT m s n).state p n = ⟨Outcome.finished, s⟩ ∧
    (data (deallocate (allocate Size sizeofT m s n).state p n).state = nullptr ↔
      size (deallocate (allocate Size sizeofT m s n).state p n).state = 0) ∧
    ∀ m2, (s.poolSize_ = 0 → m2 ≠ nullptr) →
      ∃ p2, (allocate Size sizeofT m2
        (deallocate (allocate Size sizeofT m s n).state p n).state n).outcome
          = Outcome.returned p2 := by
  have hn0 : n ≠ 0 := by omega
  obtain ⟨hwf', hal'⟩ := allocate_preserves Size sizeofT m s n hwf hal hS hlt
  obtain ⟨idx, base, c, hfit, -, hbase, hb, hc, heq⟩ :=
    allocate_returned Size sizeofT m s n p hwf hn0 hlt h
  have hp : p = base + idx * sizeofT := by
    rw [heq] at h
    exact (Outcome.returned.inj h).symm
  have hocc : Occupied (setRange (fun j => base + j * sizeofT) n idx s.ptrPool_) n idx :=
    Occupied.of_get fun k hk => ⟨base + (idx + k) * sizeofT, slot_addr_ne_null hbase _ _,
      getElem?_setRange_in _ n idx s.ptrPool_ k (hfit.bound hn0) hk⟩
  have hback : deallocate (allocate Size sizeofT m s n).state p n = ⟨Outcome.finished, s⟩ := by
    rw [heq] at hwf' hal' ⊢
    rw [hp]
    have := deallocate_run Size sizeofT _ idx n hsz hwf' hal' hS hn0 hocc
    simp only at this
    rw [this, hc hS, setRange_clear_fill _ n idx s.ptrPool_ hfit, Nat.add_sub_cancel]
    obtain ⟨ptr, pool, sz⟩ := s
    simp only [Result.mk.injEq, State.mk.injEq, true_and, and_true]
    by_cases h0 : sz = 0
    · rw [if_pos h0]
      by_contra hne
      have := hwf.2.2.1 (fun e => hne e.symm)
      simp only at this
      omega
    · rw [if_neg h0]
      simp only [if_neg h0] at hb
      exact hb
  rw [hback]
  refine ⟨rfl, ?_, ?_⟩
  · simp only [data, size]
    constructor
    · intro e
      by_contra hne
      exact (hwf.2.2.2 (by omega)) e
    · intro e
      by_contra hne
      have := hwf.2.2.1 hne
      omega
  · intro m2 hm2
    have hcap : s.poolSize_ + n ≤ Size := by
      have := hfit.room
      rw [← hwf.2.1, hwf.1] at this
      exact this
    exact allocate_succeeds Size sizeofT m2 s n idx hn0 hS hcap hfit hm2

theorem allocate_deallocate_round_trip_witness :
    (WellFormed 10 (fresh 10) ∧ SlotsAligned 4 (fresh 10) ∧
      (allocate 10 4 1000 (fresh 10) 10).outcome = Outcome.returned 1000) ∧
    deallocate (allocate 10 4 1000 (fresh 10) 10).state 1000 10
      = ⟨Outcome.finished, fresh 10⟩ ∧
    (data (deallocate (allocate 10 4 1000 (fresh 10) 10).state 1000 10).state = nullptr ↔
      size (deallocate (allocate 10 4 1000 (fresh 10) 10).state 1000 10).state = 0) ∧
    ∀ m2, ((fresh 10).poolSize_ = 0 → m2 ≠ nullptr) →
      ∃ p2, (allocate 10 4 m2
        (deallocate (allocate 10 4 1000 (fresh 10) 10).state 1000 10).state 10).outcome
          = Outcome.returned p2 :=
  ⟨by decide,
    allocate_deallocate_round_trip 10 4 1000 (fresh 10) 10 1000
      (by decide) (by decide) (by decide) (by decide) (by decide) (by decide) (by decide)⟩

theorem LiveDisjoint.symm {sizeofT : Nat} {base : Ptr} {e1 e2 : Ptr × Nat}
    (h : LiveDisjoint sizeofT base e1 e2) : LiveDisjoint sizeofT base e2 e1 :=
  fun i1 i2 k1 k2 h1 h2 h3 h4 e => h i2 i1 k2 k1 h2 h1 h4 h3 e.symm

theorem pairwise_erase_rel {α : Type} [BEq α] [LawfulBEq α] {R : α → α → Prop}
    (hsymm : ∀ a b, R a b → R b a) (l : List α) (x e : α)
    (hp : l.Pairwise R) (hx : x ∈ l) (he : e ∈ l.erase x) : R x e := by
  induction l with
  | nil => simp at hx
  | cons a t ih =>
    rw [List.pairwise_cons] at hp
    by_cases hax : a = x
    · subst hax
      rw [List.erase_cons_head] at he
      exact hp.1 e he
    · rw [List.erase_cons_tail (by simpa using hax)] at he
      have hxt : x ∈ t := by
        rcases List.mem_cons.1 hx with h | h
        · exact absurd h.symm hax
        · exact h
      rcases List.mem_cons.1 he with h | h
      · subst h
        exact hsymm _ _ (hp.1 x hxt)
      · exact ih hp.2 hxt h

theorem inv_fresh (Size sizeofT : Nat) : Inv Size sizeofT ⟨fresh Size, []⟩ := by
  refine ⟨⟨by simp [fresh], ?_, by simp [fresh, nullptr]⟩, ?_, by simp, List.Pairwise.nil⟩
  · simp [fresh, occupied, List.countP_replicate]
  · intro j hj
    simp only [fresh, List.length_replicate] at hj ⊢
    exact Or.inl (by rw [List.getElem?_replicate, if_pos hj])

theorem LiveGood.count_pos {sizeofT : Nat} {s : State} {e : Ptr × Nat}
    (h : LiveGood sizeofT s e) (he : e.2 ≠ 0) : 0 < occupied s.ptrPool_ := by
  rcases h with h | ⟨i, -, hocc⟩
  · exact absurd h he
  · have := hocc.count; omega

theorem deallocate_zero_state (Size : Nat) (s : State) (p : Ptr) (hwf : WellFormed Size s) :
    (deallocate s p 0).state = s := by
  unfold deallocate
  simp only [freeLoop]
  split
  · rfl
  · split
    · rename_i h0
      obtain ⟨ptr, pool, sz⟩ := s
      simp only [State.mk.injEq, true_and, and_true] at h0 ⊢
      by_contra hne
      have := hwf.2.2.1 (fun e => hne e.symm)
      simp only at this
      omega
    · rfl

theorem occupied_fill_mono {f : Nat → Ptr} {pool : List Ptr} {n idx m i : Nat}
    (hf : ∀ j, f j ≠ nullptr) (h : Occupied pool m i) :
    Occupied (setRange f n idx pool) m i := by
  intro k hk
  obtain ⟨hlt, hne⟩ := h k hk
  refine ⟨by rw [length_setRange]; exact hlt, ?_⟩
  rw [getElem?_setRange]
  split
  · intro e; exact hf _ (Option.some.inj e)
  · exact hne

theorem inv_cons_empty {Size sizeofT : Nat} {c : Sys} (p : Ptr)
    (hinv : Inv Size sizeofT c) : Inv Size sizeofT ⟨c.st, (p, 0) :: c.live⟩ := by
  obtain ⟨hwf, hal, hgood, hpw⟩ := hinv
  refine ⟨hwf, hal, ?_, List.pairwise_cons.2 ⟨?_, hpw⟩⟩
  · intro e he
    rcases List.mem_cons.1 he with h | h
    · subst h; exact Or.inl rfl
    · exact hgood e h
  · intro e _ i1 i2 k1 k2 _ _ hk1
    simp at hk1

theorem inv_alloc_returned {Size sizeofT : Nat} {c : Sys} (m n : Nat) (p : Ptr)
    (hsz : 0 < sizeofT) (hS : Size ≤ INT_MAX) (hn : n ≠ 0) (hlt : n < SIZE_T_RANGE)
    (hinv : Inv Size sizeofT c)
    (hp : (allocate Size sizeofT m c.st n).outcome = Outcome.returned p) :
    Inv Size sizeofT ⟨(allocate Size sizeofT m c.st n).state, (p, n) :: c.live⟩ := by
  obtain ⟨hwf, hal, hgood, hpw⟩ := hinv
  obtain ⟨hwf', hal'⟩ := allocate_preserves Size sizeofT m c.st n hwf hal hS hlt
  obtain ⟨idx, base, cnt, hfit, -, hbase, hb, -, heq⟩ :=
    allocate_returned Size sizeofT m c.st n p hwf hn hlt hp
  have hpe : p = base + idx * sizeofT := by
    rw [heq] at hp
    exact (Outcome.returned.inj hp).symm
  rw [heq] at hwf' hal' ⊢
  have hsame : ∀ e ∈ c.live, e.2 ≠ 0 → base = c.st.ptr_ := by
    intro e he he0
    have := (hgood e he).count_pos he0
    rw [← hwf.2.1] at this
    rw [if_neg (by omega)] at hb
    exact hb
  have hfne : ∀ j, (fun j => base + j * sizeofT) j ≠ nullptr :=
    fun j => slot_addr_ne_null hbase j sizeofT
  refine ⟨hwf', hal', ?_, List.pairwise_cons.2 ⟨?_, ?_⟩⟩
  · intro e he
    rcases List.mem_cons.1 he with h | h
    · subst h
      exact Or.inr ⟨idx, hpe, Occupied.of_get fun k hk =>
        ⟨base + (idx + k) * sizeofT, slot_addr_ne_null hbase _ _,
          getElem?_setRange_in _ n idx c.st.ptrPool_ k (hfit.bound hn) hk⟩⟩
    · by_cases he0 : e.2 = 0
      · exact Or.inl he0
      · rcases hgood e h with h0 | ⟨i, hi, hocc⟩
        · exact absurd h0 he0
        · refine Or.inr ⟨i, ?_, occupied_fill_mono hfne hocc⟩
          simp only
          rw [hsame e h he0]; exact hi
  · intro e he i1 i2 k1 k2 h1 h2 hk1 hk2 hcontra
    simp only at h1 hk1
    have he0 : e.2 ≠ 0 := by omega
    have hi1 : idx = i1 := mul_sizeof_inj hsz (hpe.symm.trans h1)
    rcases hgood e he with h0 | ⟨i, hi, hocc⟩
    · exact absurd h0 he0
    · rw [hsame e he he0] at h2
      have hi2 : i = i2 := mul_sizeof_inj hsz (hi.symm.trans h2)
      have h3 := hfit k1 hk1
      have h4 := (hocc k2 hk2).2
      rw [hi1, hcontra, ← hi2] at h3
      exact h4 h3
  · refine hpw.imp_of_mem ?_
    intro a b ha _ hR i1 i2 k1 k2 h1 h2 hk1 hk2
    simp only at h1 h2
    have ha0 : a.2 ≠ 0 := by omega
    rw [hsame a ha ha0] at h1 h2
    exact hR i1 i2 k1 k2 h1 h2 hk1 hk2

theorem inv_dealloc {Size sizeofT : Nat} {c : Sys} (p : Ptr) (n : Nat)
    (hsz : 0 < sizeofT) (hS : Size ≤ INT_MAX) (hinv : Inv Size sizeofT c)
    (hmem : (p, n) ∈ c.live) :
    Inv Size sizeofT ⟨(deallocate c.st p n).state, c.live.erase (p, n)⟩ := by
  obtain ⟨hwf, hal, hgood, hpw⟩ := hinv
  by_cases hn : n = 0
  · subst hn
    rw [deallocate_zero_state Size _ _ hwf]
    exact ⟨hwf, hal, fun e he => hgood e (List.mem_of_mem_erase he),
      hpw.sublist (List.erase_sublist _ _)⟩
  · rcases hgood (p, n) hmem with h0 | ⟨i, hi, hocc⟩
    · exact absurd h0 hn
    · simp only at hi hocc
      subst hi
      rw [deallocate_run Size sizeofT c.st i n hsz hwf hal hS hn hocc]
      have hcnt := occupied_setRange_clear n i c.st.ptrPool_ hocc
      have hb := hocc.end_le hn
      obtain ⟨hlen, hoc, hblk⟩ := hwf
      have hkeep : ∀ e ∈ c.live.erase (c.st.ptr_ + i * sizeofT, n), e.2 ≠ 0 →
          ∃ j : Nat, e.1 = c.st.ptr_ + j * sizeofT ∧
            Occupied (setRange (fun _ => nullptr) n i c.st.ptrPool_) e.2 j := by
        intro e he he0
        have hdis := pairwise_erase_rel (fun _ _ h => LiveDisjoint.symm h) c.live _ e hpw hmem he
        rcases hgood e (List.mem_of_mem_erase he) with h0 | ⟨j, hj, hoj⟩
        · exact absurd h0 he0
        · refine ⟨j, hj, ?_⟩
          intro k hk
          obtain ⟨hlt, hne⟩ := hoj k hk
          refine ⟨by rw [length_setRange]; exact hlt, ?_⟩
          rw [getElem?_setRange_out]
          · exact hne
          · by_contra hin
            have h1 : j + k - i < n := by omega
            have h2 : i + (j + k - i) = j + k := by omega
            exact hdis i j (j + k - i) k rfl hj h1 hk h2
      have hpos : ∀ e ∈ c.live.erase (c.st.ptr_ + i * sizeofT, n), e.2 ≠ 0 →
          c.st.poolSize_ - n ≠ 0 := by
        intro e he he0
        obtain ⟨j, -, hoj⟩ := hkeep e he he0
        have := hoj.count
        omega
      have hwf' : ∀ q : Ptr, (q ≠ nullptr ↔ 0 < c.st.poolSize_ - n) →
          WellFormed Size ⟨q, setRange (fun _ => nullptr) n i c.st.ptrPool_,
            c.st.poolSize_ - n⟩ := by
        intro q hq
        exact ⟨by simp only [length_setRange]; exact hlen, by simp only; omega, hq⟩
      by_cases hz : c.st.poolSize_ - n = 0
      · simp only [hz, if_true]
        have hall : ∀ e ∈ c.live.erase (c.st.ptr_ + i * sizeofT, n), e.2 = 0 := by
          intro e he
          by_contra he0
          exact hpos e he he0 hz
        refine ⟨?_, ?_, fun e he => Or.inl (hall e he), ?_⟩
        · have := hwf' nullptr (by simp [hz])
          rwa [hz] at this
        · intro j hj
          simp only [length_setRange] at hj ⊢
          exact Or.inl (occupied_eq_zero _ (by omega) j (by rw [length_setRange]; exact hj))
        · refine (hpw.sublist (List.erase_sublist _ _)).imp_of_mem ?_
          intro a b ha _ _ i1 i2 k1 k2 _ _ hk1 _
          rw [hall a ha] at hk1
          omega
      · simp only [hz, if_false]
        have hbase : c.st.ptr_ ≠ nullptr := hblk.2 (by omega)
        refine ⟨hwf' _ ⟨fun _ => by omega, fun _ => hbase⟩, ?_, ?_,
          hpw.sublist (List.erase_sublist _ _)⟩
        · intro j hj
          simp only [length_setRange] at hj ⊢
          rw [getElem?_setRange]
          split
          · exact Or.inl rfl
          · exact hal j hj
        · intro e he
          by_cases he0 : e.2 = 0
          · exact Or.inl he0
          · exact Or.inr (hkeep e he he0)

/-- One contract-abiding call keeps the invariant. -/
theorem inv_step {Size sizeofT : Nat} {c c1 : Sys} (op : Op) (hsz : 0 < sizeofT)
    (hS : Size ≤ INT_MAX) (hinv : Inv Size sizeofT c)
    (h : step Size sizeofT c op = some c1) : Inv Size sizeofT c1 := by
  cases op with
  | alloc n m =>
    simp only [step] at h
    by_cases hlt : n < SIZE_T_RANGE
    · rw [if_pos hlt] at h
      by_cases hr : ∃ p, (allocate Size sizeofT m c.st n).outcome = Outcome.returned p
      · obtain ⟨p, hp⟩ := hr
        rw [hp] at h
        simp only [Option.some.injEq] at h
        subst h
        by_cases hn : n = 0
        · subst hn
          rw [allocate_zero]
          exact inv_cons_empty p hinv
        · exact inv_alloc_returned m n p hsz hS hn hlt hinv hp
      · have hst := allocate_state_of_fail Size sizeofT m c.st n hinv.1
          (fun p hp => hr ⟨p, hp⟩)
        have hc1 : c1 = ⟨(allocate Size sizeofT m c.st n).state, c.live⟩ := by
          cases ho : (allocate Size sizeofT m c.st n).outcome with
          | returned p => exact absurd ⟨p, ho⟩ hr
          | finished => rw [ho] at h; exact (Option.some.inj h).symm
          | badAlloc => rw [ho] at h; exact (Option.some.inj h).symm
          | assertFailed => rw [ho] at h; exact (Option.some.inj h).symm
          | outOfBounds => rw [ho] at h; exact (Option.some.inj h).symm
          | outOfFuel => rw [ho] at h; exact (Option.some.inj h).symm
        rw [hc1, hst]
        exact hinv
    · rw [if_neg hlt] at h; cases h
  | dealloc p n =>
    simp only [step] at h
    by_cases hmem : (p, n) ∈ c.live
    · rw [if_pos hmem] at h
      simp only [Option.some.injEq] at h
      subst h
      exact inv_dealloc p n hsz hS hinv hmem
    · rw [if_neg hmem] at h; cases h

/-- Every sequence of contract-abiding calls keeps the invariant. -/
theorem inv_run {Size sizeofT : Nat} (ops : List Op) (c c1 : Sys) (hsz : 0 < sizeofT)
    (hS : Size ≤ INT_MAX) (hinv : Inv Size sizeofT c)
    (h : run Size sizeofT c ops = some c1) : Inv Size sizeofT c1 := by
  induction ops generalizing c with
  | nil =>
    simp only [run, Option.some.injEq] at h
    subst h; exact hinv
  | cons op ops ih =>
    simp only [run] at h
    cases hs : step Size sizeofT c op with
    | none => rw [hs] at h; cases h
    | some c2 =>
      rw [hs] at h
      exact ih c2 (inv_step op hsz hS hinv hs) h

/-- C3: along every sequence of `allocate`/`deallocate` calls on a freshly constructed
allocator in which each `deallocate(p, n)` releases a run returned by an earlier, not
yet released `allocate(n)`, after every call (whatever its outcome) `size()` equals the
number of occupied markers of the slot table and `0 ≤ size() ≤ Size`.  (`ops` ranges
over all such sequences, so `c` is the state after any call of any of them.) -/
theorem size_counts_occupied_markers (Size sizeofT : Nat) (ops : List Op) (c : Sys)
    (hsz : 0 < sizeofT) (hS : Size ≤ INT_MAX)
    (h : run Size sizeofT ⟨fresh Size, []⟩ ops = some c) :
    size c.st = occupied c.st.ptrPool_ ∧ 0 ≤ size c.st ∧ size c.st ≤ Size := by
  obtain ⟨⟨hlen, hocc, -⟩, -⟩ := inv_run ops _ c hsz hS (inv_fresh Size sizeofT) h
  refine ⟨hocc, Nat.zero_le _, ?_⟩
  simp only [size]
  rw [hocc, ← hlen]
  exact occupied_le_length _

theorem size_counts_occupied_markers_witness :
    run 4 4 ⟨fresh 4, []⟩
        [Op.alloc 1 1000, Op.alloc 1 0, Op.dealloc 1000 1, Op.alloc 2 0, Op.alloc 2 0] =
      some ⟨⟨1000, [0, 1004, 1008, 1012], 3⟩, [(1008, 2), (1004, 1)]⟩ ∧
    size (⟨1000, [0, 1004, 1008, 1012], 3⟩ : State) = occupied [0, 1004, 1008, 1012] ∧
    0 ≤ size (⟨1000, [0, 1004, 1008, 1012], 3⟩ : State) ∧
    size (⟨1000, [0, 1004, 1008, 1012], 3⟩ : State) ≤ 4 :=
  ⟨by decide,
    size_counts_occupied_markers 4 4
      [Op.alloc 1 1000, Op.alloc 1 0, Op.dealloc 1000 1, Op.alloc 2 0, Op.alloc 2 0]
      ⟨⟨1000, [0, 1004, 1008, 1012], 3⟩, [(1008, 2), (1004, 1)]⟩
      (by decide) (by decide) (by decide)⟩

/-- C7: along every sequence of `allocate`/`deallocate` calls on a freshly constructed
allocator in which each `deallocate(p, n)` releases a run returned by an earlier, not
yet released `allocate(n)`, after every call the backing block exists (`data()` is not
null) if and only if `size() > 0`. -/
theorem block_exists_iff_size_pos (Size sizeofT : Nat) (ops : List Op) (c : Sys)
    (hsz : 0 < sizeofT) (hS : Size ≤ INT_MAX)
    (h : run Size sizeofT ⟨fresh Size, []⟩ ops = some c) :
    data c.st ≠ nullptr ↔ 0 < size c.st :=
  (inv_run ops _ c hsz hS (inv_fresh Size sizeofT) h).1.2.2

theorem block_exists_iff_size_pos_witness :
    run 4 4 ⟨fresh 4, []⟩
        [Op.alloc 2 1000, Op.alloc 1 0, Op.dealloc 1000 2, Op.dealloc 1008 1, Op.alloc 5 7] =
      some ⟨fresh 4, []⟩ ∧
    (data (fresh 4) ≠ nullptr ↔ 0 < size (fresh 4)) :=
  ⟨by decide,
    block_exists_iff_size_pos 4 4
      [Op.alloc 2 1000, Op.alloc 1 0, Op.dealloc 1000 2, Op.dealloc 1008 1, Op.alloc 5 7]
      ⟨fresh 4, []⟩ (by decide) (by decide) (by decide)⟩

theorem setRange_snoc (f : Nat → Ptr) (k i : Nat) (pool : List Ptr) :
    setRange f 1 (i + k) (setRange f k i pool) = setRange f (k + 1) i pool := by
  apply List.ext_getElem?
  intro j
  simp only [getElem?_setRange, length_setRange]
  by_cases h1 : i + k ≤ j ∧ j < i + k + 1 ∧ j < pool.length
  · rw [if_pos h1, if_pos (by omega)]
  · rw [if_neg h1]
    by_cases h2 : i ≤ j ∧ j < i + k ∧ j < pool.length
    · rw [if_pos h2, if_pos (by omega)]
    · rw [if_neg h2, if_neg (by omega)]

theorem fits_replicate (Size n : Nat) (h : n ≤ Size) :
    Fits (List.replicate Size nullptr) n 0 := by
  intro k hk
  rw [List.getElem?_replicate, if_pos (by omega)]

/-- One step of the sequential fill: with slots `0 .. k-1` taken one by one and `k < C`,
`allocate(1)` hands out slot `k`. -/
theorem allocate_fill_step (C sizeofT : Nat) (base m : Ptr) (k : Nat)
    (hS : C ≤ INT_MAX) (hk : k < C) (hbase : base ≠ nullptr) (hm : k = 0 → m = base) :
    allocate C sizeofT m
        ⟨if k = 0 then nullptr else base,
          setRange (fun j => base + j * sizeofT) k 0 (List.replicate C nullptr), k⟩ 1 =
      ⟨Outcome.returned (base + k * sizeofT),
        ⟨base, setRange (fun j => base + j * sizeofT) (k + 1) 0 (List.replicate C nullptr),
          k + 1⟩⟩ := by
  have hfne : ∀ j, (fun j => base + j * sizeofT) j ≠ nullptr :=
    fun j => slot_addr_ne_null hbase j sizeofT
  have hwf : WellFormed C
      ⟨if k = 0 then nullptr else base,
        setRange (fun j => base + j * sizeofT) k 0 (List.replicate C nullptr), k⟩ := by
    refine ⟨by simp [length_setRange], ?_, ?_⟩
    · simp only
      rw [occupied_setRange_fill _ k 0 _ (fun j _ _ => hfne j) (fits_replicate C k (by omega))]
      simp [occupied, List.countP_replicate]
    · simp only
      by_cases h0 : k = 0
      · simp [h0]
      · simp only [h0, if_false]
        exact ⟨fun _ => by omega, fun _ => hbase⟩
  have hfit : Fits (setRange (fun j => base + j * sizeofT) k 0 (List.replicate C nullptr)) 1 k := by
    intro t ht
    have ht0 : t = 0 := by omega
    subst ht0
    rw [Nat.add_zero, getElem?_setRange_out _ _ _ _ _ (by omega), List.getElem?_replicate,
      if_pos hk]
  have hlt : (1 : Nat) < SIZE_T_RANGE := by rw [size_t_range_eq]; omega
  obtain ⟨p, hp⟩ := allocate_succeeds C sizeofT m
      ⟨if k = 0 then nullptr else base,
        setRange (fun j => base + j * sizeofT) k 0 (List.replicate C nullptr), k⟩ 1 k
    (by omega) hS (by show k + 1 ≤ C; omega) hfit
    (by
      intro h0
      have h0 : k = 0 := h0
      rw [hm h0]; exact hbase)
  obtain ⟨idx, b, c, hfit', hmin, -, hb, hc, heq⟩ :=
    allocate_returned C sizeofT m
      ⟨if k = 0 then nullptr else base,
        setRange (fun j => base + j * sizeofT) k 0 (List.replicate C nullptr), k⟩ 1 p hwf (by omega) hlt hp
  simp only at hfit' hmin hb hc heq
  have hidx : idx = k := by
    rcases Nat.lt_trichotomy idx k with h | h | h
    · have := hfit' 0 (by omega)
      rw [Nat.add_zero, getElem?_setRange, if_pos (by simp; omega)] at this
      exact absurd (Option.some.inj this) (hfne idx)
    · exact h
    · exact absurd hfit (hmin k h)
  have hbb : b = base := by
    rw [hb]
    by_cases h0 : k = 0
    · rw [if_pos h0]; exact hm h0
    · rw [if_neg h0, if_neg h0]
  subst hidx hbb
  rw [heq, hc hS]
  have := setRange_snoc (fun j => b + j * sizeofT) idx 0 (List.replicate C nullptr)
  rw [Nat.zero_add] at this
  rw [this]

theorem fillOnes_eq (C sizeofT : Nat) (ms : Nat → Ptr) (k : Nat)
    (hS : C ≤ INT_MAX) (hk : k ≤ C) (hm : ms 0 ≠ nullptr) :
    fillOnes C sizeofT ms k =
      ⟨if k = 0 then nullptr else ms 0,
        setRange (fun j => ms 0 + j * sizeofT) k 0 (List.replicate C nullptr), k⟩ := by
  induction k with
  | zero => rfl
  | succ k ih =>
    simp only [fillOnes]
    rw [ih (by omega), allocate_fill_step C sizeofT (ms 0) (ms k) k hS (by omega) hm
      (fun h0 => by rw [h0])]
    simp

/-- C10 (counterexample): `Size = 10`, freshly constructed allocator: the first of the
ten calls `allocate(1)` throws `std::bad_alloc` when `std::malloc` returns null. -/
theorem fill_needs_block :
    fillOnes 10 4 (fun _ => nullptr) 0 = fresh 10 ∧
    allocate 10 4 nullptr (fillOnes 10 4 (fun _ => nullptr) 0) 1
      = ⟨Outcome.badAlloc, fresh 10⟩ := by
  decide

/-- C10 (amended): sequential fill.  For every `Size = C ≥ 1`, starting from a freshly
constructed allocator and provided the block acquisition of the first call succeeds
(`ms 0` is not null), `C` calls `allocate(1)` in a row all succeed, call number `k`
(`k = 0 .. C-1`) returns the address of slot `k`, block base plus `k` elements, these
addresses increase strictly, one element apart, and call number `C` fails at the
capacity pre-check with `std::bad_alloc`, leaving the state as it was. -/
theorem sequential_fill (C sizeofT : Nat) (ms : Nat → Ptr) (hC : 1 ≤ C) (hS : C ≤ INT_MAX)
    (hsz : 0 < sizeofT) (hm : ms 0 ≠ nullptr) :
    (∀ k < C, (allocate C sizeofT (ms k) (fillOnes C sizeofT ms k) 1).outcome =
      Outcome.returned (ms 0 + k * sizeofT)) ∧
    (∀ k, 1 ≤ k → k ≤ C → data (fillOnes C sizeofT ms k) = ms 0) ∧
    (∀ k : Nat, ms 0 + (k + 1) * sizeofT = ms 0 + k * sizeofT + sizeofT ∧
      ms 0 + k * sizeofT < ms 0 + (k + 1) * sizeofT) ∧
    allocate C sizeofT (ms C) (fillOnes C sizeofT ms C) 1 =
      ⟨Outcome.badAlloc, fillOnes C sizeofT ms C⟩ := by
  refine ⟨?_, ?_, ?_, ?_⟩
  · intro k hk
    rw [fillOnes_eq C sizeofT ms k hS (by omega) hm,
      allocate_fill_step C sizeofT (ms 0) (ms k) k hS hk hm (fun h0 => by rw [h0])]
  · intro k hk1 hk2
    rw [fillOnes_eq C sizeofT ms k hS hk2 hm]
    simp only [data]
    rw [if_neg (by omega)]
  · intro k
    constructor
    · rw [Nat.add_mul, Nat.one_mul, Nat.add_assoc]
    · rw [Nat.add_mul, Nat.one_mul, ← Nat.add_assoc]
      exact Nat.lt_add_of_pos_right hsz
  · apply allocate_capacity_exceeded _ _ _ _ _ (by omega)
    · rw [fillOnes_eq C sizeofT ms C hS le_rfl hm, size_t_range_eq]
      simp only [INT_MAX] at hS
      simp only
      omega
    · rw [fillOnes_eq C sizeofT ms C hS le_rfl hm]
      simp only
      omega

theorem sequential_fill_witness :
    ((1 : Nat) ≤ 10 ∧ (1000 : Ptr) ≠ nullptr) ∧
    (∀ k < 10, (allocate 10 4 1000 (fillOnes 10 4 (fun _ => 1000) k) 1).outcome =
      Outcome.returned (1000 + k * 4)) ∧
    (∀ k, 1 ≤ k → k ≤ 10 → data (fillOnes 10 4 (fun _ => 1000) k) = 1000) ∧
    (∀ k : Nat, 1000 + (k + 1) * 4 = 1000 + k * 4 + 4 ∧ 1000 + k * 4 < 1000 + (k + 1) * 4) ∧
    allocate 10 4 1000 (fillOnes 10 4 (fun _ => 1000) 10) 1 =
      ⟨Outcome.badAlloc, fillOnes 10 4 (fun _ => 1000) 10⟩ :=
  ⟨by decide,
    sequential_fill 10 4 (fun _ => 1000) (by decide) (by decide) (by decide) (by decide)⟩

/-! ### Zero-size requests, address range, acquisition failure -/

/-- C11: in every state (a full one included) `allocate(0)` returns the null pointer and
changes nothing: the occupancy, every slot marker and the block pointer are the same
after the call as before it. -/
theorem allocate_zero_is_noop (Size sizeofT m : Nat) (s : State) :
    allocate Size sizeofT m s 0 = ⟨Outcome.returned nullptr, s⟩ ∧
    size (allocate Size sizeofT m s 0).state = size s ∧
    (allocate Size sizeofT m s 0).state.ptrPool_ = s.ptrPool_ ∧
    data (allocate Size sizeofT m s 0).state = data s := by
  rw [allocate_zero]
  exact ⟨rfl, rfl, rfl, rfl⟩

/-- C12: on a well-formed state and for `n ≥ 1`, an address returned by `allocate(n)`
is the block base (`data()` after the call, not null) plus `i` elements for a slot index
`i` with `0 ≤ i` and `i + n ≤ Size`: all `n` elements lie inside the block of `Size`
elements. -/
theorem allocate_address_in_block (Size sizeofT m : Nat) (s : State) (n : Nat) (p : Ptr)
    (hwf : WellFormed Size s) (hn : 1 ≤ n) (hlt : n < SIZE_T_RANGE)
    (h : (allocate Size sizeofT m s n).outcome = Outcome.returned p) :
    data (allocate Size sizeofT m s n).state ≠ nullptr ∧
    ∃ i : Nat, 0 ≤ i ∧ i + n ≤ Size ∧
      p = data (allocate Size sizeofT m s n).state + i * sizeofT := by
  obtain ⟨idx, base, c, hfit, -, hbase, -, -, heq⟩ :=
    allocate_returned Size sizeofT m s n p hwf (by omega) hlt h
  rw [heq] at h ⊢
  refine ⟨hbase, idx, Nat.zero_le _, ?_, (Outcome.returned.inj h).symm⟩
  have := hfit.bound (by omega)
  rw [hwf.1] at this
  exact this

theorem allocate_address_in_block_witness :
    (WellFormed 4 ⟨1000, [0, 1004, 0, 0], 1⟩ ∧
      (allocate 4 4 0 ⟨1000, [0, 1004, 0, 0], 1⟩ 2).outcome = Outcome.returned 1008) ∧
    data (allocate 4 4 0 ⟨1000, [0, 1004, 0, 0], 1⟩ 2).state ≠ nullptr ∧
    ∃ i : Nat, 0 ≤ i ∧ i + 2 ≤ 4 ∧
      1008 = data (allocate 4 4 0 ⟨1000, [0, 1004, 0, 0], 1⟩ 2).state + i * 4 :=
  ⟨by decide,
    allocate_address_in_block 4 4 0 ⟨1000, [0, 1004, 0, 0], 1⟩ 2 1008
      (by decide) (by decide) (by decide) (by decide)⟩

/-- C14: in a state with occupancy 0 and no block, for `1 ≤ n ≤ Size`, when the block
acquisition fails (`std::malloc` returns null) `allocate(n)` throws `std::bad_alloc` and
the state is unchanged: no slot is marked, the occupancy stays 0, `data()` stays null. -/
theorem allocate_acquisition_failure (Size sizeofT : Nat) (s : State) (n : Nat)
    (h0 : size s = 0) (hp : data s = nullptr) (hn : 1 ≤ n) (hcap : n ≤ Size) :
    allocate Size sizeofT nullptr s n = ⟨Outcome.badAlloc, s⟩ ∧
    size (allocate Size sizeofT nullptr s n).state = 0 ∧
    data (allocate Size sizeofT nullptr s n).state = nullptr ∧
    (allocate Size sizeofT nullptr s n).state.ptrPool_ = s.ptrPool_ := by
  have h0' : s.poolSize_ = 0 := h0
  have hp' : s.ptr_ = nullptr := hp
  have hpre : ¬ exceedsCapacity Size s.poolSize_ n := by
    unfold exceedsCapacity
    rw [h0', Nat.zero_add]
    have := Nat.mod_le n SIZE_T_RANGE
    omega
  have heq : allocate Size sizeofT nullptr s n = ⟨Outcome.badAlloc, s⟩ := by
    unfold allocate
    rw [if_neg (by omega), if_neg hpre, if_pos h0']
    simp only [if_true]
    obtain ⟨ptr, pool, sz⟩ := s
    simp only at hp'
    rw [hp']
  rw [heq]
  exact ⟨rfl, h0, hp, rfl⟩

theorem allocate_acquisition_failure_witness :
    (size (fresh 4) = 0 ∧ data (fresh 4) = nullptr) ∧
    allocate 4 4 nullptr (fresh 4) 3 = ⟨Outcome.badAlloc, fresh 4⟩ ∧
    size (allocate 4 4 nullptr (fresh 4) 3).state = 0 ∧
    data (allocate 4 4 nullptr (fresh 4) 3).state = nullptr ∧
    (allocate 4 4 nullptr (fresh 4) 3).state.ptrPool_ = (fresh 4).ptrPool_ :=
  ⟨by decide,
    allocate_acquisition_failure 4 4 (fresh 4) 3 (by decide) (by decide) (by decide)
      (by decide)⟩

/-! ### Contract violations of `deallocate` -/

theorem find_of_not_mem (pool : List Ptr) (p : Ptr) (h : p ∉ pool) :
    find pool 0 p = pool.length := by
  have hle := find_le pool 0 p (Nat.zero_le _)
  rcases Nat.lt_or_ge (find pool 0 p) pool.length with hlt | hge
  · have := find_get pool 0 p hlt
    exact absurd (List.getElem?_mem this) h
  · omega

/-- An address stored in no slot of the table (so a non-null one that is not tracked)
stops `deallocate` at the assertion of line 112, with the state untouched. -/
theorem deallocate_untracked (s : State) (p : Ptr) (n : Nat) (h : p ∉ s.ptrPool_) :
    deallocate s p n = ⟨Outcome.assertFailed, s⟩ := by
  unfold deallocate
  simp only [find_of_not_mem s.ptrPool_ p h, if_true]

/-- C13 (failing input): `Size = 4`, one slot taken by `allocate(1)`, then
`deallocate(nullptr, 1)`.  The null pointer is the address of no occupied slot, but
`std::find` finds it in the first empty marker (slot 1), the assertion of line 112
passes, `poolSize_` drops to 0 and the block is released while slot 0 is still
occupied. -/
theorem deallocate_null_passes_assertion :
    (allocate 4 4 1000 (fresh 4) 1).state = ⟨1000, [1000, 0, 0, 0], 1⟩ ∧
    find [1000, 0, 0, 0] 0 nullptr = 1 ∧
    deallocate (allocate 4 4 1000 (fresh 4) 1).state nullptr 1 =
      ⟨Outcome.finished, ⟨nullptr, [1000, 0, 0, 0], 0⟩⟩ ∧
    (deallocate (allocate 4 4 1000 (fresh 4) 1).state nullptr 1).outcome
      ≠ Outcome.assertFailed ∧
    ¬ WellFormed 4 (deallocate (allocate 4 4 1000 (fresh 4) 1).state nullptr 1).state := by
  decide

/-- The address of the first slot of a run of occupied slots is found by `std::find` at
that slot. -/
theorem find_run (Size sizeofT : Nat) (s : State) (i n : Nat) (hsz : 0 < sizeofT)
    (hwf : WellFormed Size s) (hal : SlotsAligned sizeofT s) (hn : n ≠ 0)
    (hrun : Occupied s.ptrPool_ n i) :
    find s.ptrPool_ 0 (s.ptr_ + i * sizeofT) = i := by
  obtain ⟨hlen, hocc, hblk⟩ := hwf
  have hb := hrun.end_le hn
  have hcnt := hrun.count
  have hbase : s.ptr_ ≠ nullptr := hblk.2 (by omega)
  have hslot : s.ptrPool_[i]? = some (s.ptr_ + i * sizeofT) := by
    obtain ⟨q, hq, hq'⟩ := hrun.get 0 (by omega)
    rw [Nat.add_zero] at hq'
    rcases hal i (by omega) with h | h
    · rw [h] at hq'; exact absurd (Option.some.inj hq').symm hq
    · exact h
  apply find_eq_of _ _ _ hslot
  intro j hj e
  rcases hal j (by omega) with h | h
  · rw [h] at e
    exact slot_addr_ne_null hbase i sizeofT (Option.some.inj e).symm
  · rw [h] at e
    have := mul_sizeof_inj hsz (Option.some.inj e)
    omega

/-- C15 (counterexample): `Size = 4`, `allocate(2)` hands out slots 0 and 1 at address
1000; the partial free `deallocate(1000, 1)` meets no assertion: it returns normally
after emptying slot 0 and lowering the occupancy to 1. -/
theorem short_count_not_rejected :
    allocate 4 4 1000 (fresh 4) 2 =
      ⟨Outcome.returned 1000, ⟨1000, [1000, 1004, 0, 0], 2⟩⟩ ∧
    deallocate (allocate 4 4 1000 (fresh 4) 2).state 1000 1 =
      ⟨Outcome.finished, ⟨1000, [0, 1004, 0, 0], 1⟩⟩ ∧
    (deallocate (allocate 4 4 1000 (fresh 4) 2).state 1000 1).outcome
      ≠ Outcome.assertFailed := by
  decide

/-- C15 (amended): the allocator keeps no record of run sizes.  On a well-formed state
(occupied markers holding their slot address), for a live run of `n ≥ 1` slots
`i .. i+n-1` handed out at address `p`, a partial free `deallocate(p, m)` with `m < n`
meets no assertion: it returns normally, empties the slots `i .. i+m-1`, leaves every
other marker as it was (the slots `i+m .. i+n-1` of the run stay occupied) and lowers
the occupancy by `m`. -/
theorem deallocate_short_count (Size sizeofT : Nat) (s : State) (p : Ptr) (i n m : Nat)
    (hsz : 0 < sizeofT) (hwf : WellFormed Size s) (hal : SlotsAligned sizeofT s)
    (hS : Size ≤ INT_MAX) (hn : 1 ≤ n) (hrun : Occupied s.ptrPool_ n i)
    (hp : p = s.ptr_ + i * sizeofT) (hm : m < n) :
    (deallocate s p m).outcome = Outcome.finished ∧
    Fits (deallocate s p m).state.ptrPool_ m i ∧
    Occupied (deallocate s p m).state.ptrPool_ (n - m) (i + m) ∧
    (∀ j, j < i ∨ i + m ≤ j → (deallocate s p m).state.ptrPool_[j]? = s.ptrPool_[j]?) ∧
    size (deallocate s p m).state + m = size s := by
  subst hp
  have hb := hrun.end_le (by omega)
  have hcnt := hrun.count
  have hrest : Occupied s.ptrPool_ (n - m) (i + m) := by
    intro k hk
    have := hrun (m + k) (by omega)
    rwa [← Nat.add_assoc] at this
  by_cases hm0 : m = 0
  · subst hm0
    have hfind := find_run Size sizeofT s i n hsz hwf hal (by omega) hrun
    have hst := deallocate_zero_state Size s (s.ptr_ + i * sizeofT) hwf
    have hout : (deallocate s (s.ptr_ + i * sizeofT) 0).outcome = Outcome.finished := by
      unfold deallocate
      simp only [hfind, freeLoop]
      rw [if_neg (by omega)]
      split <;> rfl
    rw [hst]
    exact ⟨hout, fun k hk => by omega, hrest, fun _ _ => rfl, rfl⟩
  · have hrun' : Occupied s.ptrPool_ m i := fun k hk => hrun k (by omega)
    rw [deallocate_run Size sizeofT s i m hsz hwf hal hS hm0 hrun']
    refine ⟨rfl, ?_, ?_, ?_, ?_⟩
    · exact fun k hk => getElem?_setRange_in _ m i s.ptrPool_ k (by omega) hk
    · intro k hk
      obtain ⟨hlt, hne⟩ := hrest k hk
      refine ⟨by simp only [length_setRange]; exact hlt, ?_⟩
      simp only
      rw [getElem?_setRange_out _ _ _ _ _ (by omega)]
      exact hne
    · exact fun j hj => getElem?_setRange_out _ m i s.ptrPool_ j hj
    · simp only [size]
      have := hwf.2.1
      omega

theorem deallocate_short_count_witness :
    (WellFormed 4 ⟨1000, [1000, 1004, 1008, 0], 3⟩ ∧
      SlotsAligned 4 ⟨1000, [1000, 1004, 1008, 0], 3⟩ ∧ Occupied [1000, 1004, 1008, 0] 3 0) ∧
    (deallocate ⟨1000, [1000, 1004, 1008, 0], 3⟩ 1000 2).outcome = Outcome.finished ∧
    Fits (deallocate ⟨1000, [1000, 1004, 1008, 0], 3⟩ 1000 2).state.ptrPool_ 2 0 ∧
    Occupied (deallocate ⟨1000, [1000, 1004, 1008, 0], 3⟩ 1000 2).state.ptrPool_
      (3 - 2) (0 + 2) ∧
    (∀ j, j < 0 ∨ 0 + 2 ≤ j →
      (deallocate ⟨1000, [1000, 1004, 1008, 0], 3⟩ 1000 2).state.ptrPool_[j]? =
        [1000, 1004, 1008, 0][j]?) ∧
    size (deallocate ⟨1000, [1000, 1004, 1008, 0], 3⟩ 1000 2).state + 2 = 3 :=
  ⟨by decide,
    deallocate_short_count 4 4 ⟨1000, [1000, 1004, 1008, 0], 3⟩ 1000 0 3 2
      (by decide) (by decide) (by decide) (by decide) (by decide) (by decide) (by decide)
      (by decide)⟩

/-! ### Index safety, hand-out discipline, pre-check arithmetic -/

/-- C18 (failing input): `Size = 4`, slots 0 and 2 occupied, slots 1 and 3 empty
(well-formed, block present, `2 + 2 ≤ 4`), `allocate(2)`.  The search rejects candidate
slot 1, `std::find` moves on to candidate slot 3, and the probe
`ptrPool_[index + found]` is evaluated at `3 + 1 = 4`, which is not an index of the
table of 4 markers. -/
theorem search_probes_index_size :
    WellFormed 4 holeAtOneState ∧ holeAtOneState.ptr_ ≠ nullptr ∧
    holeAtOneState.poolSize_ + 2 ≤ 4 ∧
    holeAtOneState.ptrPool_.length = 4 ∧
    find holeAtOneState.ptrPool_ 0 nullptr = 1 ∧
    probe holeAtOneState.ptrPool_ 1 (2 - 1) 1 = Probe.mismatch ∧
    find holeAtOneState.ptrPool_ (1 + 1) nullptr = 3 ∧
    holeAtOneState.ptrPool_[3 + 1]? = none ∧
    probe holeAtOneState.ptrPool_ 3 (2 - 1) 1 = Probe.outOfBounds ∧
    search holeAtOneState.ptrPool_ 2 (4 + 1) 1 = Search.outOfBounds := by
  decide

/-- C19: along every sequence of `allocate`/`deallocate` calls on a freshly constructed
allocator in which each `deallocate(p, n)` releases a run returned by an earlier, not
yet released `allocate(n)`: the slot ranges of any two live allocations are disjoint,
every occupied marker `j` holds the address `ptr_ + j`, and every live allocation
`(p, n)`, `n ≥ 1`, is a run of `n` occupied slots `i .. i+n-1` inside the table with
`p` the address of slot `i`, which is the slot `std::find` yields for `p` in
`deallocate`. -/
theorem no_double_hand_out (Size sizeofT : Nat) (ops : List Op) (c : Sys)
    (hsz : 0 < sizeofT) (hS : Size ≤ INT_MAX)
    (h : run Size sizeofT ⟨fresh Size, []⟩ ops = some c) :
    c.live.Pairwise (LiveDisjoint sizeofT c.st.ptr_) ∧
    SlotsAligned sizeofT c.st ∧
    ∀ e ∈ c.live, e.2 ≠ 0 →
      ∃ i : Nat, e.1 = c.st.ptr_ + i * sizeofT ∧ i + e.2 ≤ Size ∧
        Occupied c.st.ptrPool_ e.2 i ∧ find c.st.ptrPool_ 0 e.1 = i := by
  obtain ⟨hwf, hal, hgood, hpw⟩ := inv_run ops _ c hsz hS (inv_fresh Size sizeofT) h
  refine ⟨hpw, hal, ?_⟩
  intro e he he0
  rcases hgood e he with h0 | ⟨i, hi, hocc⟩
  · exact absurd h0 he0
  · refine ⟨i, hi, ?_, hocc, ?_⟩
    · have := hocc.end_le he0
      rw [hwf.1] at this
      exact this
    · rw [hi]
      exact find_run Size sizeofT c.st i e.2 hsz hwf hal he0 hocc

theorem no_double_hand_out_witness :
    run 4 4 ⟨fresh 4, []⟩
        [Op.alloc 1 1000, Op.alloc 1 0, Op.dealloc 1000 1, Op.alloc 2 0] =
      some ⟨⟨1000, [0, 1004, 1008, 1012], 3⟩, [(1008, 2), (1004, 1)]⟩ ∧
    [((1008 : Ptr), 2), ((1004 : Ptr), 1)].Pairwise (LiveDisjoint 4 1000) ∧
    SlotsAligned 4 ⟨1000, [0, 1004, 1008, 1012], 3⟩ ∧
    ∀ e ∈ [((1008 : Ptr), 2), ((1004 : Ptr), 1)], e.2 ≠ 0 →
      ∃ i : Nat, e.1 = 1000 + i * 4 ∧ i + e.2 ≤ 4 ∧
        Occupied [0, 1004, 1008, 1012] e.2 i ∧ find [0, 1004, 1008, 1012] 0 e.1 = i :=
  ⟨by decide,
    no_double_hand_out 4 4
      [Op.alloc 1 1000, Op.alloc 1 0, Op.dealloc 1000 1, Op.alloc 2 0]
      ⟨⟨1000, [0, 1004, 1008, 1012], 3⟩, [(1008, 2), (1004, 1)]⟩
      (by decide) (by decide) (by decide)⟩

/-- While the sum `poolSize_ + n` does not wrap, the test of line 45 is the
mathematical comparison. -/
theorem exceedsCapacity_iff_of_no_wrap (Size poolSize n : Nat)
    (h : poolSize + n < SIZE_T_RANGE) :
    exceedsCapacity Size poolSize n ↔ poolSize + n > Size := by
  unfold exceedsCapacity
  rw [Nat.mod_eq_of_lt h]

/-- C20 (failing input): `Size = 2`, occupancy 1, `n = 2^64 - 1`.  The mathematical sum
`1 + n = 2^64` exceeds `Size`, the sum in `std::size_t` is 0, and the test of line 45
does not reject the request. -/
theorem precheck_misses_wrapped_sum :
    (1 : Nat) ≤ 2 ∧ 1 ≤ 18446744073709551615 ∧ 18446744073709551615 < SIZE_T_RANGE ∧
    1 + 18446744073709551615 > 2 ∧
    (1 + 18446744073709551615) % SIZE_T_RANGE = 0 ∧
    ¬ exceedsCapacity 2 1 18446744073709551615 := by
  decide

/-! ### Requests that no run can serve -/

theorem occupied_eq_length (pool : List Ptr)
    (h : ∀ j < pool.length, pool[j]? ≠ some nullptr) : occupied pool = pool.length := by
  induction pool with
  | nil => rfl
  | cons x rest ih =>
    have hx : x ≠ nullptr := by
      have := h 0 (by simp)
      simpa using this
    have hrest := ih (fun j hj => by
      have := h (j + 1) (by simpa using hj)
      simpa using this)
    simp only [occupied, List.countP_cons, List.length_cons] at hrest ⊢
    rw [hrest, if_pos (by simpa using hx)]

theorem readLaidOut_of_get (s : State) (j : Nat) (q : Ptr) (h : s.ptrPool_[j]? = some q) :
    readLaidOut s j = some q := by
  have hlt := (List.getElem?_eq_some.1 h).1
  unfold readLaidOut
  rw [if_pos hlt, h]

theorem readLaidOut_null (s : State) (j : Nat) (h0 : s.poolSize_ ≠ 0)
    (h : readLaidOut s j = some nullptr) : s.ptrPool_[j]? = some nullptr := by
  unfold readLaidOut at h
  by_cases h1 : j < s.ptrPool_.length
  · rw [if_pos h1] at h; exact h
  · rw [if_neg h1] at h
    by_cases h2 : j = s.ptrPool_.length
    · rw [if_pos h2] at h
      exact absurd (Option.some.inj h) h0
    · rw [if_neg h2] at h; cases h

theorem probeLaidOut_complete (s : State) (index k found : Nat) (h0 : s.poolSize_ ≠ 0)
    (h : probeLaidOut s index k found = Probe.complete) :
    ∀ m < k, s.ptrPool_[index + found + m]? = some nullptr := by
  induction k generalizing found with
  | zero => intro m hm; omega
  | succ k ih =>
    simp only [probeLaidOut] at h
    split at h
    · cases h
    · rename_i q hq
      split at h
      · cases h
      · rename_i hq0
        have hq0 : q = nullptr := by simpa using hq0
        rw [hq0] at hq
        intro m hm
        cases m with
        | zero => exact readLaidOut_null s _ h0 hq
        | succ m =>
          have := ih (found + 1) h m (by omega)
          rwa [show index + (found + 1) + m = index + found + (m + 1) by omega] at this

theorem probeLaidOut_mismatch (s : State) (index k found : Nat)
    (h : probeLaidOut s index k found = Probe.mismatch) :
    ∃ m < k, s.ptrPool_[index + found + m]? ≠ some nullptr := by
  induction k generalizing found with
  | zero => simp [probeLaidOut] at h
  | succ k ih =>
    simp only [probeLaidOut] at h
    split at h
    · cases h
    · rename_i q hq
      split at h
      · rename_i hq0
        refine ⟨0, by omega, ?_⟩
        intro e
        rw [Nat.add_zero] at e
        rw [readLaidOut_of_get s _ _ e] at hq
        exact hq0 (Option.some.inj hq).symm
      · obtain ⟨m, hm, hne⟩ := ih (found + 1) h
        exact ⟨m + 1, by omega, by
          rwa [show index + (found + 1) + m = index + found + (m + 1) by omega] at hne⟩

theorem probeLaidOut_ne_outOfBounds (s : State) (index k found : Nat)
    (h0 : s.poolSize_ ≠ 0) (hb : index + found ≤ s.ptrPool_.length) :
    probeLaidOut s index k found ≠ Probe.outOfBounds := by
  induction k generalizing found with
  | zero => simp [probeLaidOut]
  | succ k ih =>
    simp only [probeLaidOut]
    rcases Nat.eq_or_lt_of_le hb with e | hlt
    · have hr : readLaidOut s (index + found) = some s.poolSize_ := by
        unfold readLaidOut
        rw [if_neg (by omega), if_pos e]
      rw [hr]
      simp only
      have h0n : s.poolSize_ ≠ nullptr := h0
      rw [if_pos h0n]
      exact fun e => Probe.noConfusion e
    · have hr : readLaidOut s (index + found) = some (s.ptrPool_[index + found]) := by
        unfold readLaidOut
        rw [if_pos hlt, List.getElem?_eq_getElem hlt]
      rw [hr]
      simp only
      split
      · exact fun e => Probe.noConfusion e
      · exact ih (found + 1) (by omega)

theorem searchLaidOut_spec (s : State) (n : Nat) (h0 : s.poolSize_ ≠ 0) (hn : n ≠ 0)
    (fuel it : Nat) (hinv : SearchInv s.ptrPool_ n it)
    (hfuel : s.ptrPool_.length - it < fuel) :
    SearchPost s.ptrPool_ n (searchLaidOut s n fuel it) ∧
      searchLaidOut s n fuel it ≠ Search.outOfBounds := by
  induction fuel generalizing it with
  | zero => omega
  | succ fuel ih =>
    obtain ⟨hle, hempty, hbefore⟩ := hinv
    simp only [searchLaidOut]
    by_cases hend : it = s.ptrPool_.length
    · rw [if_pos hend]
      refine ⟨?_, fun e => Search.noConfusion e⟩
      intro j hfit
      have hb := hfit.bound hn
      exact hbefore j (by omega) hfit
    · rw [if_neg hend]
      have hlt : it < s.ptrPool_.length := by omega
      cases hp : probeLaidOut s it (n - 1) 1 with
      | complete =>
        refine ⟨⟨?_, hbefore⟩, fun e => Search.noConfusion e⟩
        intro k hk
        cases k with
        | zero => exact hempty hlt
        | succ k =>
          have := probeLaidOut_complete s it (n - 1) 1 h0 hp k (by omega)
          rwa [show it + 1 + k = it + (k + 1) by omega] at this
      | mismatch =>
        obtain ⟨m, hm, hne⟩ := probeLaidOut_mismatch s it (n - 1) 1 hp
        have hnofit : ¬ Fits s.ptrPool_ n it := fun hfit => hne (by
          have := hfit (1 + m) (by omega)
          rwa [show it + (1 + m) = it + 1 + m by omega] at this)
        have hge := find_ge s.ptrPool_ (it + 1) nullptr
        have hle2 := find_le s.ptrPool_ (it + 1) nullptr (by omega)
        apply ih
        · refine ⟨hle2, find_get s.ptrPool_ (it + 1) nullptr, ?_⟩
          intro j hj hfit
          rcases Nat.lt_trichotomy j it with h | h | h
          · exact hbefore j h hfit
          · exact hnofit (h ▸ hfit)
          · have := hfit 0 (by omega)
            exact find_skip s.ptrPool_ (it + 1) nullptr j (by omega) hj (by simpa using this)
        · omega
      | outOfBounds =>
        exact absurd hp (probeLaidOut_ne_outOfBounds s it (n - 1) 1 h0 (by omega))

theorem probeLaidOut_eq_probe (s : State) (index k found : Nat)
    (h : probe s.ptrPool_ index k found ≠ Probe.outOfBounds) :
    probeLaidOut s index k found = probe s.ptrPool_ index k found := by
  induction k generalizing found with
  | zero => rfl
  | succ k ih =>
    simp only [probe, probeLaidOut] at h ⊢
    cases hq : s.ptrPool_[index + found]? with
    | none => rw [hq] at h; exact absurd rfl h
    | some q =>
      rw [hq] at h
      rw [readLaidOut_of_get s _ _ hq]
      simp only at h ⊢
      split
      · rfl
      · rename_i hq0
        rw [if_neg hq0] at h
        exact ih (found + 1) h

theorem searchLaidOut_eq_search (s : State) (n fuel it : Nat)
    (h : search s.ptrPool_ n fuel it ≠ Search.outOfBounds) :
    searchLaidOut s n fuel it = search s.ptrPool_ n fuel it := by
  induction fuel generalizing it with
  | zero => rfl
  | succ fuel ih =>
    simp only [search, searchLaidOut] at h ⊢
    by_cases hend : it = s.ptrPool_.length
    · rw [if_pos hend]; rw [if_pos hend]
    · rw [if_neg hend] at h ⊢
      rw [if_neg hend]
      cases hp : probe s.ptrPool_ it (n - 1) 1 with
      | complete =>
        rw [probeLaidOut_eq_probe s it (n - 1) 1 (by rw [hp]; exact fun e => Probe.noConfusion e),
          hp]
      | mismatch =>
        rw [hp] at h
        rw [probeLaidOut_eq_probe s it (n - 1) 1 (by rw [hp]; exact fun e => Probe.noConfusion e),
          hp]
        exact ih _ h
      | outOfBounds => rw [hp] at h; exact absurd rfl h

/-- The two renderings of `allocate` differ only where the run search reads past the
table: whenever `allocate` does not end at such a read, `allocateLaidOut` is the same
call. -/
theorem allocateLaidOut_eq_allocate (Size sizeofT m : Nat) (s : State) (n : Nat)
    (h : (allocate Size sizeofT m s n).outcome ≠ Outcome.outOfBounds) :
    allocateLaidOut Size sizeofT m s n = allocate Size sizeofT m s n := by
  unfold allocate at h
  unfold allocateLaidOut allocate
  by_cases hn : n = 0
  · rw [if_pos hn, if_pos hn]
  · rw [if_neg hn] at h
    rw [if_neg hn, if_neg hn]
    by_cases hpre : exceedsCapacity Size s.poolSize_ n
    · rw [if_pos hpre, if_pos hpre]
    · rw [if_neg hpre] at h
      rw [if_neg hpre, if_neg hpre]
      by_cases hz : s.poolSize_ = 0
      · rw [if_pos hz, if_pos hz]
      · rw [if_neg hz] at h
        rw [if_neg hz, if_neg hz]
        simp only at h ⊢
        by_cases hit : find s.ptrPool_ 0 nullptr = s.ptrPool_.length
        · rw [if_pos hit, if_pos hit]
        · rw [if_neg hit] at h
          rw [if_neg hit, if_neg hit]
          have hs : search s.ptrPool_ n (s.ptrPool_.length + 1) (find s.ptrPool_ 0 nullptr)
              ≠ Search.outOfBounds := by
            intro e
            rw [e] at h
            exact h rfl
          rw [searchLaidOut_eq_search s n _ _ hs]

/-- Requests beyond the capacity, `poolSize_ + n > Size`, on a well-formed state, with
the stray read resolved by the member layout: the state is never changed, and the call
throws `std::bad_alloc` unless the sum wraps past the pre-check on a full table, where
it stops at the assertion of line 68. -/
theorem allocateLaidOut_over_capacity (Size sizeofT m : Nat) (s : State) (n : Nat)
    (hwf : WellFormed Size s) (hn : 1 ≤ n) (hlt : n < SIZE_T_RANGE)
    (hover : s.poolSize_ + n > Size) :
    (allocateLaidOut Size sizeofT m s n).state = s ∧
    ((allocateLaidOut Size sizeofT m s n).outcome = Outcome.badAlloc ∨
      ((allocateLaidOut Size sizeofT m s n).outcome = Outcome.assertFailed ∧
        s.poolSize_ = Size ∧ ¬ exceedsCapacity Size s.poolSize_ n)) := by
  have hn0 : n ≠ 0 := by omega
  obtain ⟨hlen, hocc, -⟩ := hwf
  unfold allocateLaidOut
  rw [if_neg hn0]
  by_cases hpre : exceedsCapacity Size s.poolSize_ n
  · rw [if_pos hpre]; exact ⟨rfl, Or.inl rfl⟩
  · rw [if_neg hpre]
    by_cases h0 : s.poolSize_ = 0
    · exfalso
      apply hpre
      unfold exceedsCapacity
      rw [h0, Nat.zero_add, Nat.mod_eq_of_lt hlt]
      omega
    · rw [if_neg h0]
      simp only
      by_cases hit : find s.ptrPool_ 0 nullptr = s.ptrPool_.length
      · rw [if_pos hit]
        refine ⟨rfl, Or.inr ⟨rfl, ?_, hpre⟩⟩
        have := occupied_eq_length s.ptrPool_ (fun j hj =>
          find_skip s.ptrPool_ 0 nullptr j (Nat.zero_le _) (by omega))
        omega
      · rw [if_neg hit]
        have hs := searchLaidOut_spec s n h0 hn0 (s.ptrPool_.length + 1) _
          (searchInv_init s.ptrPool_ n hn0) (by omega)
        cases hr : searchLaidOut s n (s.ptrPool_.length + 1) (find s.ptrPool_ 0 nullptr) with
        | found idx =>
          rw [hr] at hs
          have := hs.1.1.room
          omega
        | exhausted => exact ⟨rfl, Or.inl rfl⟩
        | outOfBounds => exact absurd hr hs.2
        | outOfFuel => rw [hr] at hs; exact hs.1.elim

end FixedAllocator

namespace Factorial

open FixedAllocator

theorem factorialLoop_spec (N : Nat) (hN : N < INT_MAX) (d : Nat) :
    ∀ (k fuel : Nat), k + d = N → d < fuel →
      factorialLoop (N : Int) fuel ((k : Int) + 1) (k.factorial % SIZE_T_RANGE) =
        FactResult.returned (N.factorial % SIZE_T_RANGE) := by
  induction d with
  | zero =>
    intro k fuel hk hf
    obtain ⟨fuel, rfl⟩ : ∃ g, fuel = g + 1 := ⟨fuel - 1, by omega⟩
    have hk' : k = N := by omega
    subst hk'
    simp only [factorialLoop]
    rw [if_neg (by omega)]
  | succ d ih =>
    intro k fuel hk hf
    obtain ⟨fuel, rfl⟩ : ∃ g, fuel = g + 1 := ⟨fuel - 1, by omega⟩
    simp only [factorialLoop]
    rw [if_pos (by omega), if_neg (by simp only [INT_MAX] at hN ⊢; omega)]
    have e1 : ((k : Int) + 1).toNat = k + 1 := by omega
    have e2 : (k.factorial % SIZE_T_RANGE * (k + 1)) % SIZE_T_RANGE =
        (k + 1).factorial % SIZE_T_RANGE := by
      rw [Nat.factorial_succ, Nat.mod_mul_mod, Nat.mul_comm]
    rw [e1, e2]
    have := ih (k + 1) fuel (by omega) (by omega)
    rw [Nat.cast_add, Nat.cast_one] at this
    exact this

/-- For `0 ≤ n < INT_MAX` the call returns `n!` modulo `2 ^ 64`, which is `n!` itself
for `n ≤ 20`; for `n ≤ 0` it returns 1. -/
theorem factorial_spec (n : Int) :
    (0 ≤ n → n < (INT_MAX : Int) →
      factorial n = FactResult.returned (n.toNat.factorial % SIZE_T_RANGE)) ∧
    (0 ≤ n → n ≤ 20 → factorial n = FactResult.returned n.toNat.factorial) ∧
    (n ≤ 0 → factorial n = FactResult.returned 1) := by
  have hmain : 0 ≤ n → n < (INT_MAX : Int) →
      factorial n = FactResult.returned (n.toNat.factorial % SIZE_T_RANGE) := by
    intro h0 h1
    obtain ⟨N, rfl⟩ := Int.eq_ofNat_of_zero_le h0
    have hN : N < INT_MAX := by exact_mod_cast h1
    have := factorialLoop_spec N hN N 0 (N + 1) (by omega) (by omega)
    simpa [factorial, SIZE_T_RANGE] using this
  refine ⟨hmain, ?_, ?_⟩
  · intro h0 h20
    rw [hmain h0 (by simp only [INT_MAX]; omega)]
    have hle : n.toNat ≤ 20 := by omega
    have h1 := Nat.factorial_le hle
    have h2 : Nat.factorial 20 < SIZE_T_RANGE := by
      rw [size_t_range_eq]; decide
    rw [Nat.mod_eq_of_lt (by omega)]
  · intro h0
    have e : n.toNat = 0 := by omega
    simp only [factorial, e, factorialLoop]
    rw [if_neg (by omega)]

theorem factorialLoop_overflows (d : Nat) :
    ∀ (i : Int) (fuel f : Nat), 1 ≤ i → i + d = (INT_MAX : Int) → d < fuel →
      factorialLoop (INT_MAX : Int) fuel i f = FactResult.signedOverflow := by
  induction d with
  | zero =>
    intro i fuel f _ hi hf
    obtain ⟨fuel, rfl⟩ : ∃ g, fuel = g + 1 := ⟨fuel - 1, by omega⟩
    simp only [factorialLoop]
    rw [if_pos (by omega), if_pos (by omega)]
  | succ d ih =>
    intro i fuel f h1 hi hf
    obtain ⟨fuel, rfl⟩ : ∃ g, fuel = g + 1 := ⟨fuel - 1, by omega⟩
    simp only [factorialLoop]
    rw [if_pos (by omega), if_neg (by omega)]
    exact ih (i + 1) fuel _ (by omega) (by push_cast at hi ⊢; omega) (by omega)

/-- C17 (failing input): `factorial(2147483647)`.  With `n = INT_MAX` the loop test
`i <= n` holds for every `int`, so the loop reaches `i = INT_MAX` and `++i` overflows
the `int` counter: the call has no defined result, where the claim asks for
`n!` modulo `2 ^ 64`. -/
theorem factorial_int_max_overflows :
    (0 : Int) ≤ (INT_MAX : Int) ∧
    factorial (INT_MAX : Int) = FactResult.signedOverflow ∧
    ∀ v, factorial (INT_MAX : Int) ≠ FactResult.returned v := by
  have h : factorial (INT_MAX : Int) = FactResult.signedOverflow := by
    unfold factorial
    exact factorialLoop_overflows (INT_MAX - 1) 1 _ 1 (by omega)
      (by simp only [INT_MAX]; omega) (by simp only [INT_MAX]; omega)
  refine ⟨by simp only [INT_MAX]; omega, h, ?_⟩
  intro v
  rw [h]
  exact fun e => FactResult.noConfusion e

end Factorial

namespace FwdList

open FixedAllocator

/-- C16 (failing input): an empty list, `push_front(1)`, then
`insert_after(before_begin(), 2)`.  `push_front` moves `head_` but leaves
`before_->next_` null, so the node inserted after `before_begin()` gets a null `next_`
and becomes the head: iterating yields `[2]`, and the former element 1 no longer
follows the inserted one. -/
theorem insert_after_before_begin_drops_pushed :
    ((SimpleFwdList.init 100 (0 : Int)).push_front 200 1).elements = [1] ∧
    (((SimpleFwdList.init 100 (0 : Int)).push_front 200 1).insert_after 300
      ((SimpleFwdList.init 100 (0 : Int)).push_front 200 1).before_begin 2).map
        (fun r => (r.1.elements, r.2)) = some ([2], 300) ∧
    (((SimpleFwdList.init 100 (0 : Int)).push_front 200 1).insert_after 300
      ((SimpleFwdList.init 100 (0 : Int)).push_front 200 1).before_begin 2).map
        (fun r => r.1.elements) ≠ some [2, 1] := by
  decide

/-- The loop of main.cpp on an empty list: inserting 1..9, each after the iterator
returned by the previous call, starting at `before_begin()`, yields 1..9 and the last
iterator refers to the node of 9. -/
theorem insert_after_chain_one_to_nine :
    (insertChain (SimpleFwdList.init 100 (0 : Int)) (SimpleFwdList.init 100 (0 : Int)).before_begin
      [(201, 1), (202, 2), (203, 3), (204, 4), (205, 5), (206, 6), (207, 7), (208, 8),
        (209, 9)]).map (fun r => (r.1.elements, r.2)) =
      some ([1, 2, 3, 4, 5, 6, 7, 8, 9], 209) := by
  decide

end FwdList
